import Mathlib

/- Verification of the Bitcoin adapter core: the blockchain state engine
   (src/blockchainstate.rs) and the transaction relay manager
   (src/transaction_manager.rs), as a shallow embedding.

   Modelling conventions:
   - 256-bit block hashes, txids and peer socket addresses are natural numbers.
   - block_hash() and txid() are cryptographic hashes, injective in practice; they
     are modelled by carrying the hash as a field of the header or transaction
     structure.  The remaining header fields (version, time, bits, nonce) are
     consumed by the source only through block_hash(), work() and the external
     validator, so they are absorbed into the hash and header_work fields.
   - work() yields a Uint256; cumulative work is accumulated with wrapping
     256-bit addition, modelled as addition modulo 2 ^ 256.
   - Wall-clock time (SystemTime) is a natural number passed to each operation.
   - The external header-validation collaborator (validate_header from the
     btc_validation crate) is an explicit function parameter returning an
     optional error payload.
   - Rust HashMaps are modelled extensionally as functions into Option; the
     hashlink LinkedHashMap is modelled as an association list in insertion
     order (front = oldest).
   - sort_unstable_by is only specified to produce some permutation of its
     input that is sorted by the comparator; it is modelled by quantifying over
     any sorting function satisfying that contract (SortOk below). -/

namespace BA

/-! ## Transaction manager: data model (src/transaction_manager.rs) -/

/-- A Bitcoin transaction; the manager consumes it only through txid() and
clone, so the wire payload is reduced to the txid it hashes to. -/
structure Transaction where
  txid : Nat
deriving DecidableEq

/-- TX_CACHE_TIMEOUT_PERIOD_SECS = 10 * 60. -/
def TX_CACHE_TIMEOUT_PERIOD_SECS : Nat := 10 * 60

/-- MAXIMUM_TRANSACTION_PER_INV = 50_000. -/
def MAXIMUM_TRANSACTION_PER_INV : Nat := 50000

/-- TX_CACHE_SIZE = 250. -/
def TX_CACHE_SIZE : Nat := 250

/-- TransactionInfo: the tracked state of one outbound transaction.  The
advertised HashSet of peer addresses is modelled as a duplicate-free list. -/
structure TransactionInfo where
  transaction : Transaction
  advertised : List Nat
  timeout_at : Nat
deriving DecidableEq

/-- TransactionInfo::new: empty advertised set, timeout now + 600 s. -/
def TransactionInfo.new (t : Transaction) (now : Nat) : TransactionInfo :=
  { transaction := t, advertised := [], timeout_at := now + TX_CACHE_TIMEOUT_PERIOD_SECS }

/-- Inventory: only the Transaction variant is ever produced or consumed; the
other variants are collapsed into a tagged constructor. -/
inductive Inventory where
  | transaction (txid : Nat)
  | nonTransaction (tag : Nat)
deriving DecidableEq

/-- NetworkMessage: the variants this core produces or consumes, the rest
collapsed into a tagged constructor. -/
inductive NetworkMessage where
  | inv (items : List Inventory)
  | tx (t : Transaction)
  | getData (items : List Inventory)
  | otherMessage (tag : Nat)
deriving DecidableEq

/-- An outbound Command sent through the Channel capability. -/
structure Command where
  address : Option Nat
  message : NetworkMessage
deriving DecidableEq

/-- Error raised by process_bitcoin_network_message. -/
inductive ProcessBitcoinNetworkMessageError where
  | invalidMessage
deriving DecidableEq

/-- TransactionManager: the LinkedHashMap from txid to TransactionInfo as an
association list in insertion order; the head is the oldest entry. -/
structure TransactionManager where
  transactions : List (Nat × TransactionInfo)
deriving DecidableEq

/-- TransactionManager::new. -/
def TransactionManager.new : TransactionManager := ⟨[]⟩

/-- LinkedHashMap::get by txid (first matching key). -/
def TransactionManager.lookup (m : TransactionManager) (txid : Nat) : Option TransactionInfo :=
  (m.transactions.find? (fun p => p.1 == txid)).map (fun p => p.2)

/-- send_transaction.  The raw bytes are represented by their deserialisation
result: none models bytes that fail to deserialise (silently dropped).  With
exactly TX_CACHE_SIZE entries the front (oldest) entry is popped, then the
transaction is inserted at the back only if its txid is absent. -/
def send_transaction (now : Nat) (raw : Option Transaction) (m : TransactionManager) :
    TransactionManager :=
  match raw with
  | none => m
  | some t =>
    let txs := if m.transactions.length = TX_CACHE_SIZE then m.transactions.tail
               else m.transactions
    if (txs.find? (fun p => p.1 == t.txid)).isSome then ⟨txs⟩
    else ⟨txs ++ [(t.txid, TransactionInfo.new t now)]⟩

/-- make_idle: clear the cache. -/
def make_idle (_m : TransactionManager) : TransactionManager := ⟨[]⟩

/-- reap: retain only the entries whose timeout_at is not in the past. -/
def reap (now : Nat) (m : TransactionManager) : TransactionManager :=
  ⟨m.transactions.filter (fun p => ! decide (p.2.timeout_at < now))⟩

/-- One iteration of the inner loop of advertise_txids over a single cache
entry, for peer addr: push the txid and record addr in the advertised set if
addr is not yet there, then flush a full 50,000-entry inventory to every
currently connected peer.  The accumulator carries the entries processed so
far, the inventory being built, and the commands emitted so far. -/
def advertiseStep (conns : List Nat) (addr : Nat)
    (st : List (Nat × TransactionInfo) × List Inventory × List Command)
    (e : Nat × TransactionInfo) :
    List (Nat × TransactionInfo) × List Inventory × List Command :=
  let inv1 := if e.2.advertised.contains addr then st.2.1
              else st.2.1 ++ [Inventory.transaction e.1]
  let info1 := if e.2.advertised.contains addr then e.2
               else { e.2 with advertised := e.2.advertised ++ [addr] }
  if inv1.length = MAXIMUM_TRANSACTION_PER_INV then
    (st.1 ++ [(e.1, info1)], [],
     st.2.2 ++ conns.map (fun a => ⟨some a, NetworkMessage.inv inv1⟩))
  else
    (st.1 ++ [(e.1, info1)], inv1, st.2.2)

/-- The body of advertise_txids for one peer address: iterate the cache in
insertion order, then send any non-empty remaining inventory to that peer. -/
def advertiseToPeer (conns : List Nat) (addr : Nat)
    (txs : List (Nat × TransactionInfo)) (cmds : List Command) :
    List (Nat × TransactionInfo) × List Command :=
  let r := txs.foldl (advertiseStep conns addr) ([], [], cmds)
  if r.2.1.isEmpty then (r.1, r.2.2)
  else (r.1, r.2.2 ++ [⟨some addr, NetworkMessage.inv r.2.1⟩])

/-- advertise_txids: INV broadcast with batching and per-peer dedup.  The
Channel's available_connections() snapshot is the conns parameter. -/
def advertise_txids (conns : List Nat) (m : TransactionManager) :
    TransactionManager × List Command :=
  let r := conns.foldl (fun st addr => advertiseToPeer conns addr st.1 st.2)
    (m.transactions, [])
  (⟨r.1⟩, r.2)

/-- tick: advertise, then reap, at the given wall-clock time. -/
def tick (conns : List Nat) (now : Nat) (m : TransactionManager) :
    TransactionManager × List Command :=
  let r := advertise_txids conns m
  (reap now r.1, r.2)

/-- process_bitcoin_network_message: serve a GetData inventory (bounded by
50,000 items) by sending each cached requested transaction to the requesting
peer; every other message is a no-op success. -/
def process_bitcoin_network_message (addr : Nat) (msg : NetworkMessage)
    (m : TransactionManager) :
    TransactionManager × Except ProcessBitcoinNetworkMessageError Unit × List Command :=
  match msg with
  | NetworkMessage.getData items =>
    if MAXIMUM_TRANSACTION_PER_INV < items.length then
      (m, Except.error ProcessBitcoinNetworkMessageError.invalidMessage, [])
    else
      (m, Except.ok (),
       items.foldl (fun cmds i =>
         match i with
         | Inventory.transaction txid =>
           match m.lookup txid with
           | some info => cmds ++ [⟨some addr, NetworkMessage.tx info.transaction⟩]
           | none => cmds
         | Inventory.nonTransaction _ => cmds) [])
  | _ => (m, Except.ok (), [])

/-- States of the transaction manager reachable through its public interface,
with arbitrary wall-clock times and inputs at each step. -/
inductive ReachableTM : TransactionManager → Prop where
  | new : ReachableTM TransactionManager.new
  | send (now : Nat) (raw : Option Transaction) {m : TransactionManager} :
      ReachableTM m → ReachableTM (send_transaction now raw m)
  | tickStep (conns : List Nat) (now : Nat) {m : TransactionManager} :
      ReachableTM m → ReachableTM (tick conns now m).1
  | processStep (addr : Nat) (msg : NetworkMessage) {m : TransactionManager} :
      ReachableTM m → ReachableTM (process_bitcoin_network_message addr msg m).1
  | idle {m : TransactionManager} : ReachableTM m → ReachableTM (make_idle m)

/-- A full cache built by sending k distinct transactions (txids 0..k-1) at
time 0 into a fresh manager; used to instantiate claims about full caches. -/
def fillTM (k : Nat) : TransactionManager :=
  (List.range k).foldl (fun m i => send_transaction 0 (some ⟨i⟩) m) TransactionManager.new

/-- The closed form of fillTM k: entries (i, info of txid i created at 0) for
i = 0..k-1 in insertion order. -/
def filledTM (k : Nat) : TransactionManager :=
  ⟨(List.range k).map (fun i => (i, TransactionInfo.new ⟨i⟩ 0))⟩

/-- The full 250-entry cache reached by sending txids 0..249 at time 0. -/
def m250 : TransactionManager := filledTM TX_CACHE_SIZE

/-! ## Blockchain state: data model (src/blockchainstate.rs) -/

/-- Bitcoin block header.  hash models block_hash() (injective via the field),
header_work models work() as a Uint256 value; version, time, bits and nonce
are consumed by the source only through those two functions and the external
validator, so they are absorbed into hash and header_work. -/
structure BlockHeader where
  hash : Nat
  prev_blockhash : Nat
  merkle_root : Nat
  header_work : Nat
deriving DecidableEq

/-- 2 ^ 256, the modulus of Uint256 arithmetic. -/
def UINT256_MOD : Nat := 2 ^ 256

/-- Wrapping Uint256 addition used to accumulate work. -/
def uadd (a b : Nat) : Nat := (a + b) % UINT256_MOD

/-- HeaderNode: header plus height, cumulative work and the children list.
The Vec of Arc-shared child nodes is modelled by the list of child hashes
(children are stored in the header map). -/
structure HeaderNode where
  header : BlockHeader
  height : Nat
  work : Nat
  children : List Nat
deriving DecidableEq

/-- Tip: the projection of a leaf header node tracked in the tip sequence. -/
structure Tip where
  header : BlockHeader
  height : Nat
  work : Nat
deriving DecidableEq

/-- A full Bitcoin block: header plus transactions. -/
structure Block where
  header : BlockHeader
  txdata : List Transaction
deriving DecidableEq

/-- Block::block_hash() is the hash of the header. -/
def Block.block_hash (b : Block) : Nat := b.header.hash

/-- Block::compute_merkle_root(): absent for an empty transaction list,
otherwise the root combining the txids.  The pairwise sha256 combination is
abstracted to an executable injective-by-construction encoding; the claims
depend only on definedness and (in)equality with the header field. -/
def compute_merkle_root (txs : List Transaction) : Option Nat :=
  match txs with
  | [] => none
  | _ :: _ => some (txs.foldl (fun acc t => acc * UINT256_MOD + t.txid + 1) 1)

/-- HeaderCacheError of the private header cache. -/
inductive HeaderCacheError where
  | notFound (h : Nat)
  | alreadyExists
deriving DecidableEq

/-- AddHeaderError; the ValidateHeaderError payload of the external validator
is opaque to this core and modelled as a natural number. -/
inductive AddHeaderError where
  | invalidHeader (h : Nat) (cause : Nat)
  | prevHeaderNotCached (h : Nat)
deriving DecidableEq

/-- AddBlockError. -/
inductive AddBlockError where
  | invalidMerkleRoot (h : Nat)
  | header (e : AddHeaderError)
deriving DecidableEq

/-- AddHeaderResult. -/
inductive AddHeaderResult where
  | headerAdded (n : HeaderNode)
  | headerAlreadyExists (n : HeaderNode)
deriving DecidableEq

/-- BlockchainState: the header cache (map plus genesis hash), the block
cache, and the tip sequence.  Maps are modelled extensionally as functions. -/
structure BlockchainState where
  headers : Nat → Option HeaderNode
  genesis_hash : Nat
  blocks : Nat → Option Block
  tips : List Tip

/-- The external header-validation collaborator: validate_header(network,
self, header), with the network fixed inside the function; none means the
header is valid, some carries the opaque error payload. -/
abbrev Validator := BlockchainState → BlockHeader → Option Nat

/-- BlockchainState::new: the genesis header of the configured network seeds
the header cache at height 0 with its own work, and is the sole tip. -/
def BlockchainState.new (g : BlockHeader) : BlockchainState where
  headers := fun h => if h = g.hash then some ⟨g, 0, g.header_work, []⟩ else none
  genesis_hash := g.hash
  blocks := fun _ => none
  tips := [⟨g, 0, g.header_work⟩]

/-- HeaderCache::insert: reject a present hash, reject a missing parent,
otherwise link the child into the parent's children list and insert the new
node with height parent + 1 and work parent + header work. -/
def header_cache_insert (m : Nat → Option HeaderNode) (h : BlockHeader) :
    Except HeaderCacheError (Nat → Option HeaderNode) :=
  if (m h.hash).isSome then Except.error HeaderCacheError.alreadyExists
  else
    match m h.prev_blockhash with
    | none => Except.error (HeaderCacheError.notFound h.prev_blockhash)
    | some parent =>
      let node : HeaderNode := ⟨h, parent.height + 1, uadd parent.work h.header_work, []⟩
      Except.ok (fun k =>
        if k = h.hash then some node
        else if k = h.prev_blockhash then
          some { parent with children := parent.children ++ [h.hash] }
        else m k)

/-- Iterator::position on the tip sequence. -/
def position (p : Tip → Bool) : List Tip → Option Nat
  | [] => none
  | t :: ts => if p t then some 0 else (position p ts).map (fun i => i + 1)

/-- BlockchainState::add_header (private): skip a cached header, validate,
insert into the header cache, then update the tip sequence, replacing the tip
standing for the parent or appending a fresh tip. -/
def add_header (val : Validator) (s : BlockchainState) (h : BlockHeader) :
    BlockchainState × Except AddHeaderError AddHeaderResult :=
  match s.headers h.hash with
  | some cached => (s, Except.ok (AddHeaderResult.headerAlreadyExists cached))
  | none =>
    match val s h with
    | some cause => (s, Except.error (AddHeaderError.invalidHeader h.hash cause))
    | none =>
      match header_cache_insert s.headers h with
      | Except.error (HeaderCacheError.notFound p) =>
        (s, Except.error (AddHeaderError.prevHeaderNotCached p))
      | Except.error HeaderCacheError.alreadyExists =>
        -- Unreachable: insert reports alreadyExists only when the hash is a
        -- key of the map, excluded by the first match above; the source
        -- re-reads the entry here behind an expect.
        match s.headers h.hash with
        | some cached => (s, Except.ok (AddHeaderResult.headerAlreadyExists cached))
        | none => (s, Except.ok (AddHeaderResult.headerAlreadyExists ⟨h, 0, 0, []⟩))
      | Except.ok m2 =>
        -- The source re-reads the freshly inserted node behind an expect.
        let node := match m2 h.hash with
                    | some n => n
                    | none => ⟨h, 0, 0, []⟩
        let tip : Tip := ⟨h, node.height, node.work⟩
        let tips2 := match position (fun t => t.header.hash == h.prev_blockhash) s.tips with
                     | some idx => s.tips.set idx tip
                     | none => s.tips ++ [tip]
        ({ s with headers := m2, tips := tips2 }, Except.ok (AddHeaderResult.headerAdded node))

/-- The try_for_each loop of add_headers: process in order, collect added
nodes, stop at the first error. -/
def add_headers_loop (val : Validator) (s : BlockchainState) :
    List BlockHeader → BlockchainState × List HeaderNode × Option AddHeaderError
  | [] => (s, [], none)
  | h :: rest =>
    match add_header val s h with
    | (s1, Except.ok (AddHeaderResult.headerAdded n)) =>
      let r := add_headers_loop val s1 rest
      (r.1, n :: r.2.1, r.2.2)
    | (s1, Except.ok (AddHeaderResult.headerAlreadyExists _)) =>
      add_headers_loop val s1 rest
    | (s1, Except.error e) => (s1, [], some e)

/-- BlockchainState::add_headers: run the loop, then re-sort the tips by
descending cumulative work with sort_unstable_by, represented by the sorting
function parameter f (constrained by SortOk in the theorems). -/
def add_headers (val : Validator) (f : List Tip → List Tip) (s : BlockchainState)
    (hs : List BlockHeader) : BlockchainState × List HeaderNode × Option AddHeaderError :=
  let r := add_headers_loop val s hs
  ({ r.1 with tips := f r.1.tips }, r.2.1, r.2.2)

/-- BlockchainState::add_block: merkle check, add_header, re-sort tips,
insert the block into the block cache, return the height. -/
def add_block (val : Validator) (f : List Tip → List Tip) (s : BlockchainState)
    (b : Block) : BlockchainState × Except AddBlockError Nat :=
  if (compute_merkle_root b.txdata).isSome
      && ! (compute_merkle_root b.txdata == some b.header.merkle_root) then
    (s, Except.error (AddBlockError.invalidMerkleRoot b.block_hash))
  else
    match add_header val s b.header with
    | (s1, Except.error e) => (s1, Except.error (AddBlockError.header e))
    | (s1, Except.ok r) =>
      ({ s1 with tips := f s1.tips,
                 blocks := fun k => if k = b.block_hash then some b else s1.blocks k },
       Except.ok (match r with
                  | AddHeaderResult.headerAdded n => n.height
                  | AddHeaderResult.headerAlreadyExists n => n.height))

/-- BlockchainState::get_active_chain_tip: the first tip.  The source indexes
tips[0], which cannot fail on reachable states (claim C9); the default is the
value of the partial access outside that domain. -/
def get_active_chain_tip (s : BlockchainState) : Tip :=
  s.tips.headD ⟨⟨0, 0, 0, 0⟩, 0, 0⟩

/-- BlockchainState::prune_blocks: remove the listed hashes from the block
cache. -/
def prune_blocks (s : BlockchainState) (hashes : List Nat) : BlockchainState :=
  { s with blocks := fun k => if k ∈ hashes then none else s.blocks k }

/-- BlockchainState::prune_blocks_below_height: drop cached blocks whose
header height (0 when the header is unknown) is below the bound. -/
def prune_blocks_below_height (s : BlockchainState) (height : Nat) : BlockchainState :=
  { s with blocks := fun k =>
      match s.blocks k with
      | some b =>
        if (match s.headers k with | some c => c.height | none => 0) < height then none
        else some b
      | none => none }

/-- BlockchainState::clear_blocks. -/
def clear_blocks (s : BlockchainState) : BlockchainState :=
  { s with blocks := fun _ => none }

/-- The inner walk of locator_hashes: follow prev_blockhash through the header
cache for the given number of steps; none when some parent is missing. -/
def locator_walk (s : BlockchainState) : BlockHeader → Nat → Option BlockHeader
  | cur, 0 => some cur
  | cur, k + 1 =>
    match s.headers cur.prev_blockhash with
    | some cached => locator_walk s cached.header k
    | none => none

/-- u32 saturating doubling of the locator step. -/
def satDouble (step : Nat) : Nat := min (step * 2) (2 ^ 32 - 1)

/-- The 22-iteration loop of locator_hashes: push the current hash, walk back
step parents (finishing with the genesis hash if a parent is missing and the
last pushed hash is not already genesis), doubling the step from iteration 7
on; after the loop the genesis hash is appended under the same guard. -/
def locator_loop (s : BlockchainState) (gh : Nat) :
    Nat → Nat → BlockHeader → Nat → Nat → List Nat → List Nat
  | 0, _i, _cur, _step, last, acc => if last = gh then acc else acc ++ [gh]
  | fuel + 1, i, cur, step, _last, acc =>
    match locator_walk s cur step with
    | none => if cur.hash = gh then acc ++ [cur.hash] else acc ++ [cur.hash] ++ [gh]
    | some next =>
      locator_loop s gh fuel (i + 1) next (if 7 ≤ i then satDouble step else step)
        cur.hash (acc ++ [cur.hash])

/-- BlockchainState::locator_hashes. -/
def locator_hashes (s : BlockchainState) : List Nat :=
  locator_loop s s.genesis_hash 22 0 (get_active_chain_tip s).header 1
    (get_active_chain_tip s).header.hash []

/-- BlockchainState::is_block_hash_known: header cache membership. -/
def is_block_hash_known (s : BlockchainState) (h : Nat) : Bool :=
  (s.headers h).isSome

/-- Descending-work order on tips (the comparator b.work.cmp(&a.work)). -/
abbrev tipGE (a b : Tip) : Prop := b.work ≤ a.work

instance : DecidableRel tipGE := fun a b => Nat.decLe b.work a.work

instance : IsTotal Tip tipGE := ⟨fun a b => Nat.le_total b.work a.work⟩

instance : IsTrans Tip tipGE := ⟨fun _ _ _ h1 h2 => Nat.le_trans h2 h1⟩

/-- The contract of Vec::sort_unstable_by with the descending-work comparator:
the result is a permutation of the input, sorted by descending work.  Nothing
more is guaranteed; in particular equal elements may be reordered. -/
def SortOk (f : List Tip → List Tip) : Prop :=
  ∀ l, (f l).Perm l ∧ (f l).Pairwise tipGE

/-- One implementation satisfying the sort_unstable_by contract: a stable
insertion sort on descending work. -/
def sortDesc (l : List Tip) : List Tip := l.insertionSort tipGE

/-- Another implementation satisfying the contract: reverse, then stable
insertion sort; it reorders equal-work tips. -/
def revSortDesc (l : List Tip) : List Tip := l.reverse.insertionSort tipGE

/-- States of the blockchain state reachable through its public interface,
for a fixed validator; each tip recomputation may use any sorting function
satisfying the sort_unstable_by contract. -/
inductive Reachable (val : Validator) : BlockchainState → Prop where
  | init (g : BlockHeader) : Reachable val (BlockchainState.new g)
  | addHeadersStep {s : BlockchainState} (f : List Tip → List Tip)
      (hs : List BlockHeader) : Reachable val s → SortOk f →
      Reachable val (add_headers val f s hs).1
  | addBlockStep {s : BlockchainState} (f : List Tip → List Tip) (b : Block) :
      Reachable val s → SortOk f → Reachable val (add_block val f s b).1
  | pruneStep {s : BlockchainState} (hashes : List Nat) :
      Reachable val s → Reachable val (prune_blocks s hashes)
  | pruneBelowStep {s : BlockchainState} (h : Nat) :
      Reachable val s → Reachable val (prune_blocks_below_height s h)
  | clearStep {s : BlockchainState} :
      Reachable val s → Reachable val (clear_blocks s)

/-- The structural well-formedness of the blockchain state maintained by
add_header: tips are the leaves of the header tree, exactly once each. -/
def CoreWF (s : BlockchainState) : Prop :=
  s.tips ≠ []
  ∧ (s.tips.map (fun t => t.header.hash)).Nodup
  ∧ (∀ t ∈ s.tips, ∃ n, s.headers t.header.hash = some n ∧ n.header = t.header
      ∧ n.height = t.height ∧ n.work = t.work ∧ n.children = [])
  ∧ (∀ h n, s.headers h = some n → n.header.hash = h)
  ∧ (∀ h n, s.headers h = some n → n.children = [] →
      ∃ t ∈ s.tips, t.header = n.header ∧ t.height = n.height ∧ t.work = n.work)

/-- The invariant holding at the public operation boundary: CoreWF plus tips
sorted by descending work. -/
def PublicWF (s : BlockchainState) : Prop :=
  CoreWF s ∧ s.tips.Pairwise tipGE

/-- A chain of N headers above genesis present in the header store, with the
active tip at its end; the premise of the locator-shape claim. -/
structure ChainInStore (s : BlockchainState) (c : Nat → BlockHeader) (N : Nat) : Prop where
  tip_eq : (get_active_chain_tip s).header = c N
  link : ∀ k, k < N → (c (k + 1)).prev_blockhash = (c k).hash
  stored : ∀ k, k ≤ N → ∃ n, s.headers ((c k).hash) = some n ∧ n.header = c k
  inj : ∀ j k, j ≤ N → k ≤ N → (c j).hash = (c k).hash → j = k
  genesis_eq : s.genesis_hash = (c 0).hash

/-- The back-offsets from the active tip actually produced by the 22-iteration
locator loop on a long enough chain. -/
def actual_offsets : List Nat :=
  [0, 1, 2, 3, 4, 5, 6, 7, 8, 10, 14, 22, 38, 70, 134, 262, 518, 1030, 2054, 4102, 8198, 16390]

/-- The back-offsets asserted by the specification sentence (claim C2),
written from the words of the spec: 0..7, then 7+2, 7+2+4, ... up through
7+2+4+...+4096. -/
def spec_offsets : List Nat :=
  [0, 1, 2, 3, 4, 5, 6, 7, 9, 13, 21, 37, 69, 133, 261, 517, 1029, 2053, 4101, 8197]

/-- Header k of the concrete straight chain used for counterexamples: hash is
k + 1 (so that hash 0 is never a key), parent is header k - 1. -/
def mkChainHeader (k : Nat) : BlockHeader := ⟨k + 1, k, 0, 1⟩

/-- A state holding the straight chain of headers 0..N with the tip at
height N. -/
def mkChainState (N : Nat) : BlockchainState where
  headers := fun h =>
    if 1 ≤ h ∧ h ≤ N + 1 then
      some ⟨mkChainHeader (h - 1), h - 1, h, if h = N + 1 then [] else [h + 1]⟩
    else none
  genesis_hash := 1
  blocks := fun _ => none
  tips := [⟨mkChainHeader N, N, N + 1⟩]

/-- A validator accepting everything, for concrete instantiations. -/
def trivialValidator : Validator := fun _ _ => none

/-- A validator rejecting exactly the header whose hash is 9, with cause 3. -/
def rejecting9 : Validator := fun _ h => if h.hash = 9 then some 3 else none

/-- Concrete genesis header for instantiations. -/
def g0 : BlockHeader := ⟨1, 0, 0, 1⟩

/-- Concrete header extending genesis. -/
def hA : BlockHeader := ⟨2, 1, 0, 5⟩

/-- A second concrete header extending genesis with the same work as hA. -/
def hB : BlockHeader := ⟨3, 1, 0, 5⟩

/-- The header rejected by rejecting9. -/
def hBad : BlockHeader := ⟨9, 2, 0, 1⟩

/-- Fresh state from the concrete genesis. -/
def s0 : BlockchainState := BlockchainState.new g0

/-- A block whose single transaction yields a merkle root different from the
header field. -/
def bBad : Block := ⟨⟨5, 1, 99, 1⟩, [⟨0⟩]⟩

/-- A block with no transactions (merkle check bypassed). -/
def bGood : Block := ⟨⟨2, 1, 0, 5⟩, []⟩

/-! ## Transaction manager: lemmas and claims -/

theorem find?_tail_none {α : Type} {p : α → Bool} {l : List α}
    (h : l.find? p = none) : l.tail.find? p = none := by
  rw [List.find?_eq_none] at h ⊢
  exact fun x hx => h x (List.mem_of_mem_tail hx)

theorem advertiseStep_fst (conns : List Nat) (addr : Nat)
    (st : List (Nat × TransactionInfo) × List Inventory × List Command)
    (e : Nat × TransactionInfo) :
    ∃ info1, (advertiseStep conns addr st e).1 = st.1 ++ [(e.1, info1)] := by
  unfold advertiseStep
  dsimp only
  repeat' split
  all_goals exact ⟨_, rfl⟩

theorem advertise_foldl_keys (conns : List Nat) (addr : Nat) :
    ∀ (l done : List (Nat × TransactionInfo)) (inv : List Inventory) (cmds : List Command),
      ((l.foldl (advertiseStep conns addr) (done, inv, cmds)).1).map Prod.fst
        = done.map Prod.fst ++ l.map Prod.fst := by
  intro l
  induction l with
  | nil => intro done inv cmds; simp
  | cons e rest ih =>
    intro done inv cmds
    simp only [List.foldl_cons]
    obtain ⟨info1, h1⟩ := advertiseStep_fst conns addr (done, inv, cmds) e
    rcases hst : advertiseStep conns addr (done, inv, cmds) e with ⟨d1, i1, c1⟩
    rw [hst] at h1
    dsimp only at h1
    rw [ih d1 i1 c1, h1]
    simp

theorem advertiseToPeer_keys (conns : List Nat) (addr : Nat)
    (txs : List (Nat × TransactionInfo)) (cmds : List Command) :
    (advertiseToPeer conns addr txs cmds).1.map Prod.fst = txs.map Prod.fst := by
  have h := advertise_foldl_keys conns addr txs [] [] cmds
  simp only [advertiseToPeer]
  split
  all_goals simpa using h

theorem advertise_txids_keys (conns : List Nat) (m : TransactionManager) :
    (advertise_txids conns m).1.transactions.map Prod.fst
      = m.transactions.map Prod.fst := by
  have h : ∀ (cs : List Nat) (txs : List (Nat × TransactionInfo)) (cmds : List Command),
      ((cs.foldl (fun st addr => advertiseToPeer conns addr st.1 st.2) (txs, cmds)).1).map Prod.fst
        = txs.map Prod.fst := by
    intro cs
    induction cs with
    | nil => intro txs cmds; rfl
    | cons a rest ih =>
      intro txs cmds
      simp only [List.foldl_cons]
      have hk := advertiseToPeer_keys conns a txs cmds
      rcases hst : advertiseToPeer conns a txs cmds with ⟨txs1, cmds1⟩
      rw [hst] at hk
      dsimp only at hk ⊢
      rw [ih txs1 cmds1]
      exact hk
  exact h conns m.transactions []

theorem process_state_id (addr : Nat) (msg : NetworkMessage) (m : TransactionManager) :
    (process_bitcoin_network_message addr msg m).1 = m := by
  cases msg with
  | getData items =>
    simp only [process_bitcoin_network_message]
    split
    · rfl
    · rfl
  | inv l => rfl
  | tx t => rfl
  | otherMessage tag => rfl

theorem tail_keys_nodup {l : List (Nat × TransactionInfo)}
    (h : (l.map Prod.fst).Nodup) : (l.tail.map Prod.fst).Nodup := by
  cases l with
  | nil => simp
  | cons x xs => exact (List.nodup_cons.mp (by simpa using h)).2

theorem keys_nodup_send {m : TransactionManager} (now : Nat) (raw : Option Transaction)
    (ih : (m.transactions.map Prod.fst).Nodup) :
    ((send_transaction now raw m).transactions.map Prod.fst).Nodup := by
  cases raw with
  | none => simpa [send_transaction] using ih
  | some t =>
    simp only [send_transaction]
    set txs := if m.transactions.length = TX_CACHE_SIZE then m.transactions.tail
               else m.transactions with htxs
    have htn : (txs.map Prod.fst).Nodup := by
      rw [htxs]
      split
      · exact tail_keys_nodup ih
      · exact ih
    by_cases hf : (txs.find? (fun p => p.1 == t.txid)).isSome
    · simpa [hf] using htn
    · have hnone : txs.find? (fun p => p.1 == t.txid) = none :=
        Option.not_isSome_iff_eq_none.mp hf
      have hmem : t.txid ∉ txs.map Prod.fst := by
        rw [List.find?_eq_none] at hnone
        intro hx
        obtain ⟨p, hp, hpe⟩ := List.mem_map.mp hx
        exact hnone p hp (by simpa using hpe)
      simp only [hf, if_false, Bool.false_eq_true]
      simpa [List.nodup_append] using And.intro htn hmem

theorem tm_keys_nodup {m : TransactionManager} (h : ReachableTM m) :
    (m.transactions.map Prod.fst).Nodup := by
  induction h with
  | new => simp [TransactionManager.new]
  | send now raw _hr ih => exact keys_nodup_send now raw ih
  | tickStep conns now _hr ih =>
    rename_i m0
    have hadv : ((advertise_txids conns m0).1.transactions.map Prod.fst).Nodup := by
      rw [advertise_txids_keys conns m0]; exact ih
    have hsub : List.Sublist
        (((advertise_txids conns m0).1.transactions.filter
          (fun p => ! decide (p.2.timeout_at < now))).map Prod.fst)
        ((advertise_txids conns m0).1.transactions.map Prod.fst) :=
      List.Sublist.map Prod.fst (List.filter_sublist _)
    exact hadv.sublist hsub
  | processStep addr msg _hr ih =>
    rename_i m0
    rw [process_state_id addr msg m0]
    exact ih
  | idle _hr _ih => simp [make_idle]

theorem tm_len_le {m : TransactionManager} (h : ReachableTM m) :
    m.transactions.length ≤ TX_CACHE_SIZE := by
  induction h with
  | new => simp [TransactionManager.new]
  | send now raw _hr ih =>
    rename_i m0
    cases raw with
    | none => simpa [send_transaction] using ih
    | some t =>
      simp only [send_transaction]
      set txs := if m0.transactions.length = TX_CACHE_SIZE then m0.transactions.tail
                 else m0.transactions with htxs
      have hpos : 0 < TX_CACHE_SIZE := by decide
      have hlt : txs.length < TX_CACHE_SIZE := by
        rw [htxs]
        split
        · rename_i he
          rw [List.length_tail, he]
          omega
        · rename_i hne
          omega
      split
      · exact Nat.le_of_lt hlt
      · simpa using hlt
  | tickStep conns now _hr ih =>
    rename_i m0
    have hl : (advertise_txids conns m0).1.transactions.length
        = m0.transactions.length := by
      have h2 := congrArg List.length (advertise_txids_keys conns m0)
      simpa using h2
    have h3 : (tick conns now m0).1.transactions.length
        ≤ (advertise_txids conns m0).1.transactions.length :=
      List.length_filter_le _ _
    omega
  | processStep addr msg _hr ih =>
    rename_i m0
    rw [process_state_id addr msg m0]
    exact ih
  | idle _hr _ih => simp [make_idle]

theorem reachable_send_fold : ∀ (l : List Nat) (m : TransactionManager), ReachableTM m →
    ReachableTM (l.foldl (fun m i => send_transaction 0 (some ⟨i⟩) m) m) := by
  intro l
  induction l with
  | nil => exact fun m h => h
  | cons a rest ih => exact fun m h => ih _ (ReachableTM.send 0 (some ⟨a⟩) h)

theorem reachable_fillTM (k : Nat) : ReachableTM (fillTM k) :=
  reachable_send_fold (List.range k) _ ReachableTM.new

theorem filled_find?_none (k : Nat) :
    ((List.range k).map (fun i => (i, TransactionInfo.new ⟨i⟩ 0))).find?
      (fun p => p.1 == k) = none := by
  rw [List.find?_eq_none]
  intro x hx
  obtain ⟨i, hi, rfl⟩ := List.mem_map.mp hx
  have hlt : i < k := List.mem_range.mp hi
  simp only [beq_iff_eq]
  omega

theorem fillTM_eq : ∀ k, k ≤ TX_CACHE_SIZE → fillTM k = filledTM k := by
  intro k
  induction k with
  | zero => intro _; rfl
  | succ k ih =>
    intro hk
    have hk2 : k ≤ TX_CACHE_SIZE := Nat.le_of_succ_le hk
    have hfold : fillTM (k + 1) = send_transaction 0 (some ⟨k⟩) (fillTM k) := by
      unfold fillTM
      rw [List.range_succ, List.foldl_append]
      rfl
    rw [hfold, ih hk2]
    have hlen : (filledTM k).transactions.length ≠ TX_CACHE_SIZE := by
      simp only [filledTM, List.length_map, List.length_range]
      omega
    have hfind : (filledTM k).transactions.find? (fun p => p.1 == k) = none :=
      filled_find?_none k
    simp only [send_transaction, if_neg hlen, hfind]
    simp [filledTM, List.range_succ]

theorem reachable_m250 : ReachableTM m250 := by
  have h := reachable_fillTM TX_CACHE_SIZE
  rwa [fillTM_eq TX_CACHE_SIZE le_rfl] at h

theorem send_dup_cases (m : TransactionManager) (now : Nat) (t : Transaction)
    (hlen : m.transactions.length = TX_CACHE_SIZE) :
    ((m.transactions.tail.find? (fun p => p.1 == t.txid)).isSome →
      (send_transaction now (some t) m).transactions = m.transactions.tail)
    ∧ (m.transactions.tail.find? (fun p => p.1 == t.txid) = none →
      (send_transaction now (some t) m).transactions
        = m.transactions.tail ++ [(t.txid, TransactionInfo.new t now)]) := by
  constructor
  · intro h
    simp [send_transaction, hlen, h]
  · intro h
    simp [send_transaction, hlen, h]

theorem send_not_full_dup (m : TransactionManager) (now : Nat) (t : Transaction)
    (hlen : m.transactions.length ≠ TX_CACHE_SIZE)
    (hfind : (m.transactions.find? (fun p => p.1 == t.txid)).isSome) :
    send_transaction now (some t) m = m := by
  simp [send_transaction, hlen, hfind]

theorem lookup_isSome_find {m : TransactionManager} {txid : Nat}
    (h : (m.lookup txid).isSome) :
    (m.transactions.find? (fun p => p.1 == txid)).isSome := by
  unfold TransactionManager.lookup at h
  simpa using h

/-- Claim C8: after any sequence of send_transaction, tick,
process_bitcoin_network_message and make_idle calls the transaction cache
holds at most 250 entries, and a send_transaction carrying a new txid at a
full cache evicts the oldest-inserted entry (the head of the insertion
order) and appends the new entry at the back. -/
theorem claim_C8 :
    (∀ m : TransactionManager, ReachableTM m → m.transactions.length ≤ TX_CACHE_SIZE)
    ∧ (∀ (m : TransactionManager) (now : Nat) (t : Transaction),
        m.transactions.length = TX_CACHE_SIZE → m.lookup t.txid = none →
        (send_transaction now (some t) m).transactions
          = m.transactions.tail ++ [(t.txid, TransactionInfo.new t now)]) := by
  constructor
  · exact fun m h => tm_len_le h
  · intro m now t hlen hnone
    have hfull : m.transactions.find? (fun p => p.1 == t.txid) = none := by
      unfold TransactionManager.lookup at hnone
      exact Option.map_eq_none'.mp hnone
    exact (send_dup_cases m now t hlen).2 (find?_tail_none hfull)

set_option maxRecDepth 20000 in
/-- Witness for claim C8: the empty manager is reachable and within the
bound, and a concrete full cache evicts its oldest entry on a new txid. -/
theorem claim_C8_witness :
    TransactionManager.new.transactions.length ≤ TX_CACHE_SIZE
    ∧ m250.transactions.length = TX_CACHE_SIZE
    ∧ m250.lookup 999 = none
    ∧ (send_transaction 5 (some ⟨999⟩) m250).transactions
        = m250.transactions.tail ++ [(999, TransactionInfo.new ⟨999⟩ 5)] := by
  refine ⟨claim_C8.1 _ ReachableTM.new, by decide, by decide, ?_⟩
  exact claim_C8.2 m250 5 ⟨999⟩ (by decide) (by decide)

/-- Claim C10: a duplicate send_transaction at a full cache of 250 entries
still evicts the oldest entry, shrinking the cache to 249; when the oldest
entry is the duplicate itself it is removed and re-created at the back with a
fresh 600-second timeout and an empty advertised set. -/
theorem claim_C10 : ∀ (m : TransactionManager) (now : Nat) (t : Transaction),
    ReachableTM m → m.transactions.length = TX_CACHE_SIZE →
    (m.lookup t.txid).isSome →
    ((∀ k info, m.transactions.head? = some (k, info) → k ≠ t.txid) →
       (send_transaction now (some t) m).transactions = m.transactions.tail
       ∧ (send_transaction now (some t) m).transactions.length = TX_CACHE_SIZE - 1)
    ∧ (∀ info, m.transactions.head? = some (t.txid, info) →
       (send_transaction now (some t) m).transactions
         = m.transactions.tail ++ [(t.txid, TransactionInfo.new t now)]) := by
  intro m now t hr hlen hsome
  have hnodup := tm_keys_nodup hr
  have hfind := lookup_isSome_find hsome
  cases hm : m.transactions with
  | nil =>
    rw [hm] at hlen
    exact absurd hlen (by decide)
  | cons e rest =>
    constructor
    · intro hne
      have hkey : e.1 ≠ t.txid := hne e.1 e.2 rfl
      have hfr : (rest.find? (fun p => p.1 == t.txid)).isSome := by
        rw [hm, List.find?_cons_of_neg _ (by simpa using hkey)] at hfind
        exact hfind
      have h1 := (send_dup_cases m now t hlen).1 (by rw [hm]; exact hfr)
      rw [hm] at h1
      refine ⟨h1, ?_⟩
      rw [h1, List.length_tail, ← hm, hlen]
    · intro info hh
      have he : e = (t.txid, info) := by injection hh
      subst he
      rw [hm] at hnodup
      have hn2 : (t.txid :: rest.map Prod.fst).Nodup := by simpa using hnodup
      have hmem : t.txid ∉ rest.map Prod.fst := (List.nodup_cons.mp hn2).1
      have hfr : rest.find? (fun p => p.1 == t.txid) = none := by
        rw [List.find?_eq_none]
        intro x hx hpx
        exact hmem (List.mem_map.mpr ⟨x, hx, by simpa using hpx⟩)
      have h2 := (send_dup_cases m now t hlen).2 (by rw [hm]; exact hfr)
      rw [hm] at h2
      exact h2

set_option maxRecDepth 20000 in
/-- Witness for claim C10: a concrete reachable full cache whose oldest entry
is the duplicate being re-sent. -/
theorem claim_C10_witness :
    (send_transaction 7 (some ⟨0⟩) m250).transactions
      = m250.transactions.tail ++ [(0, TransactionInfo.new ⟨0⟩ 7)] := by
  exact (claim_C10 m250 7 ⟨0⟩ reachable_m250
    (by decide) (by decide)).2 (TransactionInfo.new ⟨0⟩ 0) (by decide)

set_option maxRecDepth 20000 in
/-- Claim C3 counterexample: at a full cache of 250 entries whose oldest
entry is txid 0 (created at time 0, so timeout_at = 600), re-sending txid 0
at time 50 changes the cached entry: its timeout_at becomes 650, refuting
that the existing entry is left completely unchanged. -/
theorem claim_C3_counterexample :
    ReachableTM m250
    ∧ (m250.lookup 0).isSome
    ∧ (m250.lookup 0).map (fun i => i.timeout_at) = some 600
    ∧ ((send_transaction 50 (some ⟨0⟩) m250).lookup 0).map
        (fun i => i.timeout_at) = some 650
    ∧ (send_transaction 50 (some ⟨0⟩) m250).lookup 0 ≠ m250.lookup 0 := by
  refine ⟨reachable_m250, by decide, by decide, by decide, by decide⟩

/-- Claim C3 amended: re-sending a known transaction leaves the cache
completely unchanged when the cache is below capacity; at a full cache of 250
entries the oldest entry is evicted, and the existing entry is unchanged
whenever it is not itself the oldest; when it is the oldest, it is evicted
and re-created with a fresh timeout and empty advertised set. -/
theorem claim_C3 : ∀ (m : TransactionManager) (now : Nat) (t : Transaction),
    (m.lookup t.txid).isSome →
    (m.transactions.length ≠ TX_CACHE_SIZE → send_transaction now (some t) m = m)
    ∧ (m.transactions.length = TX_CACHE_SIZE →
        (∀ k info, m.transactions.head? = some (k, info) → k ≠ t.txid →
          (send_transaction now (some t) m).transactions = m.transactions.tail
          ∧ (send_transaction now (some t) m).lookup t.txid = m.lookup t.txid)
        ∧ ((m.transactions.map Prod.fst).Nodup →
           ∀ info, m.transactions.head? = some (t.txid, info) →
          (send_transaction now (some t) m).transactions
            = m.transactions.tail ++ [(t.txid, TransactionInfo.new t now)])) := by
  intro m now t hsome
  have hfind := lookup_isSome_find hsome
  constructor
  · intro hne
    exact send_not_full_dup m now t hne hfind
  · intro hlen
    cases hm : m.transactions with
    | nil =>
      rw [hm] at hlen
      exact absurd hlen (by decide)
    | cons e rest =>
      constructor
      · intro k info hh hk
        have he : e = (k, info) := by injection hh
        have hkey : e.1 ≠ t.txid := by rw [he]; exact hk
        have hfr : (rest.find? (fun p => p.1 == t.txid)).isSome := by
          rw [hm, List.find?_cons_of_neg _ (by simpa using hkey)] at hfind
          exact hfind
        have h1 := (send_dup_cases m now t hlen).1 (by rw [hm]; exact hfr)
        have h1e : (send_transaction now (some t) m).transactions = (e :: rest).tail := by
          rw [h1, hm]
        refine ⟨h1e, ?_⟩
        unfold TransactionManager.lookup
        rw [h1, hm]
        rw [List.find?_cons_of_neg _ (by simpa using hkey)]
        rfl
      · intro hnodup info hh
        have he : e = (t.txid, info) := by injection hh
        subst he
        have hn2 : (t.txid :: rest.map Prod.fst).Nodup := by simpa using hnodup
        have hmem : t.txid ∉ rest.map Prod.fst := (List.nodup_cons.mp hn2).1
        have hfr : rest.find? (fun p => p.1 == t.txid) = none := by
          rw [List.find?_eq_none]
          intro x hx hpx
          exact hmem (List.mem_map.mpr ⟨x, hx, by simpa using hpx⟩)
        have h2 := (send_dup_cases m now t hlen).2 (by rw [hm]; exact hfr)
        rw [hm] at h2
        exact h2

set_option maxRecDepth 20000 in
/-- Witness for the amended claim C3: re-sending a cached transaction into a
cache of 3 entries leaves the manager unchanged. -/
theorem claim_C3_witness :
    send_transaction 77 (some ⟨1⟩) (fillTM 3) = fillTM 3 := by
  exact (claim_C3 (fillTM 3) 77 ⟨1⟩ (by decide)).1 (by decide)

theorem getdata_foldl (m : TransactionManager) (addr : Nat) :
    ∀ (items : List Inventory) (acc : List Command),
      items.foldl (fun cmds i =>
        match i with
        | Inventory.transaction txid =>
          match m.lookup txid with
          | some info => cmds ++ [⟨some addr, NetworkMessage.tx info.transaction⟩]
          | none => cmds
        | Inventory.nonTransaction _ => cmds) acc
      = acc ++ items.filterMap (fun i =>
          match i with
          | Inventory.transaction txid =>
            (m.lookup txid).map
              (fun info => Command.mk (some addr) (NetworkMessage.tx info.transaction))
          | Inventory.nonTransaction _ => none) := by
  intro items
  induction items with
  | nil => intro acc; simp
  | cons i rest ih =>
    intro acc
    cases i with
    | transaction txid =>
      cases hl : m.lookup txid with
      | some info => simp [hl, ih]
      | none => simp [hl, ih]
    | nonTransaction tag => simp [ih]

/-- Claim C6: process_bitcoin_network_message returns InvalidMessage exactly
for a GetData whose inventory exceeds 50,000 items; any non-GetData message
is a no-op success; a valid GetData emits one Tx command to the requesting
peer for exactly the Transaction inventory items whose txid is cached, in
order, and the transaction cache is left unchanged. -/
theorem claim_C6 (addr : Nat) (msg : NetworkMessage) (m : TransactionManager) :
    ((process_bitcoin_network_message addr msg m).2.1
        = Except.error ProcessBitcoinNetworkMessageError.invalidMessage
      ↔ ∃ items, msg = NetworkMessage.getData items
          ∧ MAXIMUM_TRANSACTION_PER_INV < items.length)
    ∧ ((∀ items, msg ≠ NetworkMessage.getData items) →
        (process_bitcoin_network_message addr msg m).2.1 = Except.ok ()
        ∧ (process_bitcoin_network_message addr msg m).2.2 = [])
    ∧ (∀ items, msg = NetworkMessage.getData items →
        items.length ≤ MAXIMUM_TRANSACTION_PER_INV →
        (process_bitcoin_network_message addr msg m).2.2
          = items.filterMap (fun i =>
              match i with
              | Inventory.transaction txid =>
                (m.lookup txid).map
                  (fun info => Command.mk (some addr) (NetworkMessage.tx info.transaction))
              | Inventory.nonTransaction _ => none))
    ∧ (process_bitcoin_network_message addr msg m).1 = m := by
  refine ⟨?_, ?_, ?_, process_state_id addr msg m⟩
  · cases msg with
    | getData items =>
      by_cases h : MAXIMUM_TRANSACTION_PER_INV < items.length
      · refine ⟨fun _ => ⟨items, rfl, h⟩, fun _ => ?_⟩
        simp [process_bitcoin_network_message, h]
      · simp only [process_bitcoin_network_message, if_neg h]
        constructor
        · intro he
          exact absurd he (by simp)
        · rintro ⟨items2, heq, hlen⟩
          injection heq with heq2
          subst heq2
          exact absurd hlen h
    | inv l =>
      constructor
      · intro he
        exact absurd he (by simp [process_bitcoin_network_message])
      · rintro ⟨items2, heq, _⟩
        cases heq
    | tx t =>
      constructor
      · intro he
        exact absurd he (by simp [process_bitcoin_network_message])
      · rintro ⟨items2, heq, _⟩
        cases heq
    | otherMessage tag =>
      constructor
      · intro he
        exact absurd he (by simp [process_bitcoin_network_message])
      · rintro ⟨items2, heq, _⟩
        cases heq
  · intro hne
    cases msg with
    | getData items => exact absurd rfl (hne items)
    | inv l => exact ⟨rfl, rfl⟩
    | tx t => exact ⟨rfl, rfl⟩
    | otherMessage tag => exact ⟨rfl, rfl⟩
  · intro items heq hlen
    subst heq
    simp only [process_bitcoin_network_message, if_neg (not_lt.mpr hlen)]
    rw [getdata_foldl m addr items []]
    simp

/-- Witness for claim C6: serving a GetData with one cached txid, one unknown
txid and one non-transaction item emits exactly the one cached transaction to
the requesting peer, and a non-GetData message is a no-op success. -/
theorem claim_C6_witness :
    (process_bitcoin_network_message 1
      (NetworkMessage.getData
        [Inventory.transaction 0, Inventory.transaction 99, Inventory.nonTransaction 5])
      (fillTM 2)).2.2
      = [Command.mk (some 1) (NetworkMessage.tx ⟨0⟩)]
    ∧ (process_bitcoin_network_message 1 (NetworkMessage.otherMessage 4) (fillTM 2)).2.1
      = Except.ok () := by
  constructor
  · rw [(claim_C6 1 (NetworkMessage.getData
      [Inventory.transaction 0, Inventory.transaction 99, Inventory.nonTransaction 5])
      (fillTM 2)).2.2.1 _ rfl (by decide)]
    decide
  · exact ((claim_C6 1 (NetworkMessage.otherMessage 4) (fillTM 2)).2.1
      (fun items h => NetworkMessage.noConfusion h)).1

/-! ## Blockchain state: lemmas and claims -/

theorem sortOk_sortDesc : SortOk sortDesc := by
  intro l
  exact ⟨List.perm_insertionSort tipGE l, List.sorted_insertionSort tipGE l⟩

theorem sortOk_revSortDesc : SortOk revSortDesc := by
  intro l
  exact ⟨(List.perm_insertionSort tipGE l.reverse).trans l.reverse_perm,
    List.sorted_insertionSort tipGE l.reverse⟩

/-- Claim C1 (amended): whenever the tip sequence is recomputed — at the end
of every add_headers call and after every successful add_block call — the new
tip sequence is a permutation of the tip sequence left by the header
processing loop, sorted by descending cumulative work; the sort is
sort_unstable_by, whose contract does not preserve the order of equal-work
tips, so equal-work tips need not keep the order of first observation. -/
theorem claim_C1 : ∀ (val : Validator) (f : List Tip → List Tip)
    (s : BlockchainState) (hs : List BlockHeader) (b : Block), SortOk f →
    ((add_headers val f s hs).1.tips.Pairwise tipGE
      ∧ (add_headers val f s hs).1.tips.Perm (add_headers_loop val s hs).1.tips)
    ∧ (∀ s2 ht, add_block val f s b = (s2, Except.ok ht) →
        s2.tips.Pairwise tipGE) := by
  intro val f s hs b hf
  refine ⟨⟨(hf _).2, (hf _).1⟩, ?_⟩
  intro s2 ht heq
  unfold add_block at heq
  split at heq
  · exact absurd heq (by simp)
  · split at heq
    · exact absurd heq (by simp)
    · rename_i s1 r heq2
      have h1 := congrArg Prod.fst heq
      dsimp only at h1
      rw [← h1]
      exact (hf s1.tips).2

/-- Witness for the amended claim C1: a sorting function satisfying the
sort_unstable_by contract, applied to a concrete add_headers call. -/
theorem claim_C1_witness :
    SortOk sortDesc
    ∧ (add_headers trivialValidator sortDesc s0 [hA, hB]).1.tips.Pairwise tipGE := by
  exact ⟨sortOk_sortDesc,
    ((claim_C1 trivialValidator sortDesc s0 [hA, hB] ⟨g0, []⟩ sortOk_sortDesc).1).1⟩

/-- Claim C1 counterexample: two equal-work headers hA and hB forking from
genesis are observed in the order hA, hB (the loop leaves the tips in that
order, both with cumulative work 6), yet revSortDesc — a sorting function
satisfying everything the sort_unstable_by contract guarantees — recomputes
the tip sequence as hB, hA, so the claimed first-observed order of equal-work
tips is not preserved by the code. -/
theorem claim_C1_counterexample :
    SortOk revSortDesc
    ∧ (add_headers_loop trivialValidator s0 [hA, hB]).1.tips.map
        (fun t => t.header.hash) = [2, 3]
    ∧ (∀ t ∈ (add_headers_loop trivialValidator s0 [hA, hB]).1.tips, t.work = 6)
    ∧ (add_headers trivialValidator revSortDesc s0 [hA, hB]).1.tips.map
        (fun t => t.header.hash) = [3, 2] := by
  exact ⟨sortOk_revSortDesc, by decide, by decide, by decide⟩

theorem merkle_cond_iff (b : Block) :
    (((compute_merkle_root b.txdata).isSome
      && ! (compute_merkle_root b.txdata == some b.header.merkle_root)) = true)
    ↔ (b.txdata ≠ [] ∧ compute_merkle_root b.txdata ≠ some b.header.merkle_root) := by
  cases htx : b.txdata with
  | nil => simp [compute_merkle_root]
  | cons x xs => simp [compute_merkle_root]

/-- Claim C5: add_block returns InvalidMerkleRoot(block hash) exactly when
the transaction list is non-empty and its computed merkle root differs from
the header field; in that case the state (header cache, block cache and tip
sequence) is unchanged; a block with no transactions never fails the merkle
check. -/
theorem claim_C5 : ∀ (val : Validator) (f : List Tip → List Tip)
    (s : BlockchainState) (b : Block),
    (∀ h : Nat, (add_block val f s b).2 = Except.error (AddBlockError.invalidMerkleRoot h)
      ↔ (h = b.block_hash ∧ b.txdata ≠ []
         ∧ compute_merkle_root b.txdata ≠ some b.header.merkle_root))
    ∧ (b.txdata ≠ [] → compute_merkle_root b.txdata ≠ some b.header.merkle_root →
        (add_block val f s b).1 = s)
    ∧ (b.txdata = [] →
        ∀ h : Nat, (add_block val f s b).2 ≠ Except.error (AddBlockError.invalidMerkleRoot h)) := by
  intro val f s b
  by_cases hm : b.txdata ≠ [] ∧ compute_merkle_root b.txdata ≠ some b.header.merkle_root
  · have hcond := (merkle_cond_iff b).mpr hm
    unfold add_block
    rw [if_pos hcond]
    refine ⟨?_, fun _ _ => rfl, ?_⟩
    · intro h
      constructor
      · intro he
        have hbh : AddBlockError.invalidMerkleRoot b.block_hash
            = AddBlockError.invalidMerkleRoot h := by
          injection he
        have : b.block_hash = h := by injection hbh
        exact ⟨this.symm, hm.1, hm.2⟩
      · rintro ⟨rfl, _, _⟩
        rfl
    · intro hnil
      exact absurd hnil hm.1
  · have hcond : ¬ (((compute_merkle_root b.txdata).isSome
        && ! (compute_merkle_root b.txdata == some b.header.merkle_root)) = true) :=
      fun hct => hm ((merkle_cond_iff b).mp hct)
    unfold add_block
    rw [if_neg hcond]
    rcases hah : add_header val s b.header with ⟨s1, r⟩
    cases r with
    | error e =>
      refine ⟨?_, ?_, ?_⟩
      · intro h
        constructor
        · intro he
          exact absurd he (by simp)
        · rintro ⟨_, h1, h2⟩
          exact absurd ⟨h1, h2⟩ hm
      · intro h1 h2
        exact absurd ⟨h1, h2⟩ hm
      · intro _ h he
        exact absurd he (by simp)
    | ok r2 =>
      refine ⟨?_, ?_, ?_⟩
      · intro h
        constructor
        · intro he
          exact absurd he (by simp)
        · rintro ⟨_, h1, h2⟩
          exact absurd ⟨h1, h2⟩ hm
      · intro h1 h2
        exact absurd ⟨h1, h2⟩ hm
      · intro _ h he
        exact absurd he (by simp)

/-- Witness for claim C5: a one-transaction block whose merkle root does not
match the header field is rejected with the block hash and leaves the state
unchanged; an empty block is never rejected for its merkle root. -/
theorem claim_C5_witness :
    ((add_block trivialValidator sortDesc s0 bBad).2
      = Except.error (AddBlockError.invalidMerkleRoot bBad.block_hash))
    ∧ (add_block trivialValidator sortDesc s0 bBad).1 = s0
    ∧ (∀ h, (add_block trivialValidator sortDesc s0 bGood).2
        ≠ Except.error (AddBlockError.invalidMerkleRoot h)) := by
  refine ⟨?_, ?_, ?_⟩
  · exact ((claim_C5 trivialValidator sortDesc s0 bBad).1 bBad.block_hash).mpr
      ⟨rfl, by decide, by decide⟩
  · exact (claim_C5 trivialValidator sortDesc s0 bBad).2.1 (by decide) (by decide)
  · exact (claim_C5 trivialValidator sortDesc s0 bGood).2.2 rfl

theorem header_cache_insert_ok {m : Nat → Option HeaderNode} {h : BlockHeader}
    {m2 : Nat → Option HeaderNode} (hi : header_cache_insert m h = Except.ok m2) :
    ∃ parent, m h.hash = none ∧ m h.prev_blockhash = some parent
      ∧ m2 = fun k =>
          if k = h.hash then
            some ⟨h, parent.height + 1, uadd parent.work h.header_work, []⟩
          else if k = h.prev_blockhash then
            some { parent with children := parent.children ++ [h.hash] }
          else m k := by
  unfold header_cache_insert at hi
  split at hi
  · exact absurd hi (by simp)
  · rename_i hnone
    split at hi
    · exact absurd hi (by simp)
    · rename_i parent hp
      dsimp only at hi
      refine ⟨parent, Option.not_isSome_iff_eq_none.mp hnone, hp, ?_⟩
      injection hi with hh
      exact hh.symm

theorem add_header_exists {val : Validator} {s : BlockchainState} {h : BlockHeader}
    {cached : HeaderNode} (hc : s.headers h.hash = some cached) :
    add_header val s h = (s, Except.ok (AddHeaderResult.headerAlreadyExists cached)) := by
  unfold add_header
  rw [hc]

theorem add_header_error_state {val : Validator} {s : BlockchainState} {h : BlockHeader}
    {s1 : BlockchainState} {e : AddHeaderError}
    (heq : add_header val s h = (s1, Except.error e)) : s1 = s := by
  unfold add_header at heq
  split at heq
  · exact absurd heq (by simp)
  · split at heq
    · exact (congrArg Prod.fst heq).symm
    · split at heq
      · exact (congrArg Prod.fst heq).symm
      · split at heq
        · exact absurd heq (by simp)
        · exact absurd heq (by simp)
      · exact absurd heq (by simp)

theorem add_header_already_state {val : Validator} {s : BlockchainState} {h : BlockHeader}
    {s1 : BlockchainState} {c : HeaderNode}
    (heq : add_header val s h = (s1, Except.ok (AddHeaderResult.headerAlreadyExists c))) :
    s1 = s := by
  unfold add_header at heq
  split at heq
  · exact (congrArg Prod.fst heq).symm
  · split at heq
    · exact absurd heq (by simp)
    · split at heq
      · exact absurd heq (by simp)
      · split at heq
        · exact (congrArg Prod.fst heq).symm
        · exact (congrArg Prod.fst heq).symm
      · exact absurd heq (by simp)

theorem add_header_added_facts {val : Validator} {s : BlockchainState} {h : BlockHeader}
    {s1 : BlockchainState} {n : HeaderNode}
    (heq : add_header val s h = (s1, Except.ok (AddHeaderResult.headerAdded n))) :
    n.header = h ∧ s.headers h.hash = none ∧ s1.headers h.hash = some n
    ∧ (∀ k n0, s.headers k = some n0 → ∃ n2, s1.headers k = some n2
        ∧ n2.header = n0.header ∧ n2.height = n0.height ∧ n2.work = n0.work) := by
  unfold add_header at heq
  split at heq
  · exact absurd heq (by simp)
  · rename_i hnone
    split at heq
    · exact absurd heq (by simp)
    · split at heq
      · exact absurd heq (by simp)
      · split at heq
        · exact absurd heq (by simp)
        · exact absurd heq (by simp)
      · rename_i m2 hins
        obtain ⟨parent, hno, hp, hm2⟩ := header_cache_insert_ok hins
        have hm2h : m2 h.hash
            = some ⟨h, parent.height + 1, uadd parent.work h.header_work, []⟩ := by
          rw [hm2]
          simp
        simp only [hm2h] at heq
        have h1 := congrArg Prod.fst heq
        have h2 := congrArg Prod.snd heq
        dsimp only at h1 h2
        have hn : (⟨h, parent.height + 1, uadd parent.work h.header_work, []⟩ : HeaderNode)
            = n := by
          simpa using h2
        have hpne : h.prev_blockhash ≠ h.hash := by
          intro hpe
          rw [hpe, hnone] at hp
          cases hp
        refine ⟨by rw [← hn], hnone, ?_, ?_⟩
        · rw [← h1]
          show m2 h.hash = some n
          rw [hm2h, hn]
        · intro k n0 hk
          have hkne : k ≠ h.hash := by
            intro hke
            rw [hke, hnone] at hk
            cases hk
          by_cases hkp : k = h.prev_blockhash
          · have hn0 : n0 = parent := by
              rw [hkp, hp] at hk
              injection hk with hk2
              exact hk2.symm
            refine ⟨{ parent with children := parent.children ++ [h.hash] }, ?_, ?_, ?_, ?_⟩
            · rw [← h1]
              show m2 k = _
              rw [hm2]
              simp [hkne, hkp, hpne]
            · rw [hn0]
            · rw [hn0]
            · rw [hn0]
          · refine ⟨n0, ?_, rfl, rfl, rfl⟩
            rw [← h1]
            show m2 k = _
            rw [hm2]
            simp [hkne, hkp]
            exact hk

theorem add_headers_loop_mono (val : Validator) : ∀ (hs : List BlockHeader)
    (s s2 : BlockchainState) (ns : List HeaderNode) (e2 : Option AddHeaderError),
    add_headers_loop val s hs = (s2, ns, e2) →
    (∀ k n0, s.headers k = some n0 → ∃ n2, s2.headers k = some n2
        ∧ n2.header = n0.header ∧ n2.height = n0.height ∧ n2.work = n0.work)
    ∧ (∀ n ∈ ns, ∃ n2, s2.headers n.header.hash = some n2
        ∧ n2.header = n.header ∧ n2.height = n.height ∧ n2.work = n.work) := by
  intro hs
  induction hs with
  | nil =>
    intro s s2 ns e2 heq
    simp only [add_headers_loop] at heq
    rw [Prod.mk.injEq, Prod.mk.injEq] at heq
    obtain ⟨rfl, rfl, rfl⟩ := heq
    exact ⟨fun k n0 hk => ⟨n0, hk, rfl, rfl, rfl⟩, by simp⟩
  | cons h t ih =>
    intro s s2 ns e2 heq
    simp only [add_headers_loop] at heq
    rcases hah : add_header val s h with ⟨s1, r⟩
    rw [hah] at heq
    cases r with
    | ok res =>
      cases res with
      | headerAdded n =>
        dsimp only at heq
        rcases hl : add_headers_loop val s1 t with ⟨s3, ns3, e3⟩
        rw [hl] at heq
        dsimp only at heq
        rw [Prod.mk.injEq, Prod.mk.injEq] at heq
        obtain ⟨rfl, rfl, rfl⟩ := heq
        have hfacts := add_header_added_facts hah
        have ihm := ih s1 s3 ns3 e3 hl
        constructor
        · intro k n0 hk
          obtain ⟨n1, hn1, he1, hh1, hw1⟩ := hfacts.2.2.2 k n0 hk
          obtain ⟨n2, hn2, he2, hh2, hw2⟩ := ihm.1 k n1 hn1
          exact ⟨n2, hn2, he2.trans he1, hh2.trans hh1, hw2.trans hw1⟩
        · intro n4 hn4
          rcases List.mem_cons.mp hn4 with h4 | h4
          · subst h4
            exact ihm.1 n4.header.hash n4 (by rw [hfacts.1]; exact hfacts.2.2.1)
          · exact ihm.2 n4 h4
      | headerAlreadyExists c =>
        dsimp only at heq
        have hs1 : s1 = s := add_header_already_state hah
        subst hs1
        exact ih s1 s2 ns e2 heq
    | error e =>
      dsimp only at heq
      rw [Prod.mk.injEq, Prod.mk.injEq] at heq
      obtain ⟨rfl, rfl, rfl⟩ := heq
      have hs1 : s1 = s := add_header_error_state hah
      subst hs1
      exact ⟨fun k n0 hk => ⟨n0, hk, rfl, rfl, rfl⟩, by simp⟩

theorem add_headers_loop_error_decomp (val : Validator) : ∀ (hs : List BlockHeader)
    (s s2 : BlockchainState) (ns : List HeaderNode) (e : AddHeaderError),
    add_headers_loop val s hs = (s2, ns, some e) →
    ∃ i h2 si, hs[i]? = some h2
      ∧ add_headers_loop val s (hs.take i) = (si, ns, none)
      ∧ add_header val si h2 = (si, Except.error e)
      ∧ s2 = si := by
  intro hs
  induction hs with
  | nil =>
    intro s s2 ns e heq
    simp only [add_headers_loop] at heq
    rw [Prod.mk.injEq, Prod.mk.injEq] at heq
    exact absurd heq.2.2 (by simp)
  | cons h t ih =>
    intro s s2 ns e heq
    simp only [add_headers_loop] at heq
    rcases hah : add_header val s h with ⟨s1, r⟩
    rw [hah] at heq
    cases r with
    | ok res =>
      cases res with
      | headerAdded n =>
        dsimp only at heq
        rcases hl : add_headers_loop val s1 t with ⟨s3, ns3, e3⟩
        rw [hl] at heq
        dsimp only at heq
        rw [Prod.mk.injEq, Prod.mk.injEq] at heq
        obtain ⟨h1, h2, h3⟩ := heq
        obtain ⟨i, hh2, si, hi1, hi2, hi3, hi4⟩ := ih s1 s3 ns3 e (by rw [hl, h3])
        refine ⟨i + 1, hh2, si, by simpa using hi1, ?_, hi3, by rw [← h1, hi4]⟩
        simp only [List.take_succ_cons, add_headers_loop]
        rw [hah]
        dsimp only
        rw [hi2]
        dsimp only
        rw [← h2]
      | headerAlreadyExists c =>
        dsimp only at heq
        have hs1 : s1 = s := add_header_already_state hah
        subst hs1
        obtain ⟨i, hh2, si, hi1, hi2, hi3, hi4⟩ := ih s1 s2 ns e heq
        refine ⟨i + 1, hh2, si, by simpa using hi1, ?_, hi3, hi4⟩
        simp only [List.take_succ_cons, add_headers_loop]
        rw [hah]
        exact hi2
    | error e0 =>
      dsimp only at heq
      rw [Prod.mk.injEq, Prod.mk.injEq] at heq
      obtain ⟨h1, h2, h3⟩ := heq
      have he : e0 = e := by injection h3
      have hs1 : s1 = s := add_header_error_state hah
      refine ⟨0, h, s, by simp, ?_, ?_, ?_⟩
      · rw [← h2]
        rfl
      · have := hah
        rw [hs1, he] at this
        exact this
      · rw [← h1, hs1]

/-- Claim C4: add_headers processes its input strictly in order; a header
already in the store is skipped without error; at the first failing header
the loop stops — the result equals the result of processing only the prefix
before the failure — and both the headers added so far and that first error
are returned, with every added header still present in the store (its node
possibly extended with children). -/
theorem claim_C4 : ∀ (val : Validator) (f : List Tip → List Tip)
    (s : BlockchainState) (hs : List BlockHeader),
    (∀ (h : BlockHeader) (cached : HeaderNode), s.headers h.hash = some cached →
       add_header val s h = (s, Except.ok (AddHeaderResult.headerAlreadyExists cached)))
    ∧ (∀ s2 ns e, add_headers val f s hs = (s2, ns, some e) →
       ∃ i h2 si, hs[i]? = some h2
         ∧ add_headers_loop val s (hs.take i) = (si, ns, none)
         ∧ add_header val si h2 = (si, Except.error e)
         ∧ s2.headers = si.headers
         ∧ s2.tips = f si.tips
         ∧ (∀ n ∈ ns, ∃ n2, si.headers n.header.hash = some n2
             ∧ n2.header = n.header ∧ n2.height = n.height ∧ n2.work = n.work)) := by
  intro val f s hs
  constructor
  · intro h cached hc
    exact add_header_exists hc
  · intro s2 ns e heq
    unfold add_headers at heq
    rcases hl : add_headers_loop val s hs with ⟨s3, ns3, e3⟩
    rw [hl] at heq
    dsimp only at heq
    rw [Prod.mk.injEq, Prod.mk.injEq] at heq
    obtain ⟨h1, h2, h3⟩ := heq
    obtain ⟨i, hh2, si, hi1, hi2, hi3, hi4⟩ :=
      add_headers_loop_error_decomp val hs s s3 ns3 e (by rw [hl, h3])
    subst hi4
    rw [h2] at hi2
    have hmono := (add_headers_loop_mono val (hs.take i) s s3 ns none hi2).2
    refine ⟨i, hh2, s3, hi1, hi2, hi3, ?_, ?_, hmono⟩
    · rw [← h1]
    · rw [← h1]

/-- Witness for claim C4: a cached header is skipped without error, and a
batch whose second header is rejected by the validator stops there, returning
the nodes added for the prefix together with that first error. -/
theorem claim_C4_witness :
    (add_header trivialValidator s0 g0
       = (s0, Except.ok (AddHeaderResult.headerAlreadyExists ⟨g0, 0, 1, []⟩)))
    ∧ ∃ i h2 si, ([hA, hBad])[i]? = some h2
        ∧ add_headers_loop rejecting9 s0 ([hA, hBad].take i)
            = (si, (add_headers rejecting9 sortDesc s0 [hA, hBad]).2.1, none)
        ∧ add_header rejecting9 si h2 = (si, Except.error (AddHeaderError.invalidHeader 9 3)) := by
  constructor
  · exact (claim_C4 trivialValidator sortDesc s0 []).1 g0 ⟨g0, 0, 1, []⟩ (by decide)
  · obtain ⟨i, h2, si, a, b, c, _, _, _⟩ :=
      (claim_C4 rejecting9 sortDesc s0 [hA, hBad]).2
        (add_headers rejecting9 sortDesc s0 [hA, hBad]).1
        (add_headers rejecting9 sortDesc s0 [hA, hBad]).2.1
        (AddHeaderError.invalidHeader 9 3) rfl
    exact ⟨i, h2, si, a, b, c⟩

theorem position_eq_none_iff {p : Tip → Bool} : ∀ {l : List Tip},
    position p l = none ↔ ∀ t ∈ l, ¬ p t := by
  intro l
  induction l with
  | nil => simp [position]
  | cons x xs ih =>
    simp only [position]
    by_cases hx : p x
    · simp [hx]
    · simp [hx, ih]

theorem position_some_spec {p : Tip → Bool} : ∀ {l : List Tip} {i : Nat},
    position p l = some i → ∃ hi : i < l.length, p (l.get ⟨i, hi⟩) = true := by
  intro l
  induction l with
  | nil => intro i h; simp [position] at h
  | cons x xs ih =>
    intro i h
    simp only [position] at h
    by_cases hx : p x
    · rw [if_pos hx] at h
      injection h with h0
      subst h0
      exact ⟨by simp, hx⟩
    · rw [if_neg hx] at h
      cases hpx : position p xs with
      | none =>
        rw [hpx] at h
        cases h
      | some j =>
        rw [hpx] at h
        dsimp only [Option.map] at h
        have hji : j + 1 = i := by injection h
        subst hji
        obtain ⟨hj, hpj⟩ := ih hpx
        exact ⟨by simpa using Nat.succ_lt_succ hj, by simpa using hpj⟩

theorem nodup_set_of_not_mem {α : Type} : ∀ {l : List α} {i : Nat} {a : α},
    l.Nodup → a ∉ l → (l.set i a).Nodup := by
  intro l
  induction l with
  | nil => intro i a _ _; simp
  | cons x xs ih =>
    intro i a hn ha
    have hxa : a ≠ x := fun he => ha (by rw [he]; exact List.mem_cons_self x xs)
    obtain ⟨hx, hxs⟩ := List.nodup_cons.mp hn
    cases i with
    | zero =>
      simp only [List.set_cons_zero]
      exact List.nodup_cons.mpr ⟨fun hm => ha (List.mem_cons_of_mem x hm), hxs⟩
    | succ j =>
      simp only [List.set_cons_succ]
      refine List.nodup_cons.mpr ⟨?_, ih hxs (fun hm => ha (List.mem_cons_of_mem x hm))⟩
      intro hm
      rcases List.mem_or_eq_of_mem_set hm with hm2 | hm2
      · exact hx hm2
      · exact hxa hm2.symm

theorem add_header_added_full {val : Validator} {s : BlockchainState} {h : BlockHeader}
    {s1 : BlockchainState} {n : HeaderNode}
    (heq : add_header val s h = (s1, Except.ok (AddHeaderResult.headerAdded n))) :
    ∃ parent,
      s.headers h.hash = none
      ∧ s.headers h.prev_blockhash = some parent
      ∧ n = ⟨h, parent.height + 1, uadd parent.work h.header_work, []⟩
      ∧ s1.headers = (fun k =>
          if k = h.hash then some n
          else if k = h.prev_blockhash then
            some { parent with children := parent.children ++ [h.hash] }
          else s.headers k)
      ∧ s1.tips = (match position (fun t => t.header.hash == h.prev_blockhash) s.tips with
          | some idx => s.tips.set idx ⟨h, n.height, n.work⟩
          | none => s.tips ++ [⟨h, n.height, n.work⟩]) := by
  unfold add_header at heq
  split at heq
  · exact absurd heq (by simp)
  · rename_i hnone
    split at heq
    · exact absurd heq (by simp)
    · split at heq
      · exact absurd heq (by simp)
      · split at heq
        · exact absurd heq (by simp)
        · exact absurd heq (by simp)
      · rename_i m2 hins
        obtain ⟨parent, hno, hp, hm2⟩ := header_cache_insert_ok hins
        have hm2h : m2 h.hash
            = some ⟨h, parent.height + 1, uadd parent.work h.header_work, []⟩ := by
          rw [hm2]
          simp
        simp only [hm2h] at heq
        have h1 := congrArg Prod.fst heq
        have h2 := congrArg Prod.snd heq
        dsimp only at h1 h2
        have hn : (⟨h, parent.height + 1, uadd parent.work h.header_work, []⟩ : HeaderNode)
            = n := by
          simpa using h2
        refine ⟨parent, hnone, hp, hn.symm, ?_, ?_⟩
        · rw [← h1]
          show m2 = _
          rw [hm2]
          funext k
          by_cases hk : k = h.hash
          · simp [hk, hn]
          · simp [hk]
        · rw [← h1, ← hn]

theorem core_wf_tips_perm {s : BlockchainState} {tips2 : List Tip}
    (hwf : CoreWF s) (hperm : tips2.Perm s.tips) : CoreWF { s with tips := tips2 } := by
  obtain ⟨hne, hnd, htip, hkey, hleaf⟩ := hwf
  refine ⟨?_, ?_, ?_, hkey, ?_⟩
  · intro h0
    dsimp only at h0
    rw [h0] at hperm
    exact hne hperm.symm.eq_nil
  · exact (hperm.map (fun t => t.header.hash)).nodup_iff.mpr hnd
  · intro t ht0
    exact htip t (hperm.mem_iff.mp ht0)
  · intro k n1 hk hc
    obtain ⟨t, ht1, hfields⟩ := hleaf k n1 hk hc
    exact ⟨t, hperm.mem_iff.mpr ht1, hfields⟩

theorem add_header_core_wf {val : Validator} {s : BlockchainState} {h : BlockHeader}
    (hwf : CoreWF s) : CoreWF (add_header val s h).1 := by
  obtain ⟨hne, hnd, htip, hkey, hleaf⟩ := hwf
  rcases hah : add_header val s h with ⟨s1, r⟩
  show CoreWF s1
  cases r with
  | error e =>
    rw [add_header_error_state hah]
    exact ⟨hne, hnd, htip, hkey, hleaf⟩
  | ok res =>
    cases res with
    | headerAlreadyExists c =>
      rw [add_header_already_state hah]
      exact ⟨hne, hnd, htip, hkey, hleaf⟩
    | headerAdded n =>
      obtain ⟨parent, hnone, hp, hn, hm, ht⟩ := add_header_added_full hah
      have hpne : h.prev_blockhash ≠ h.hash := by
        intro hpe
        rw [hpe, hnone] at hp
        cases hp
      have f1 : ∀ t ∈ s.tips, t.header.hash ≠ h.hash := by
        intro t ht0 he
        obtain ⟨nt, hnt, _⟩ := htip t ht0
        rw [he, hnone] at hnt
        cases hnt
      have hhmem : h.hash ∉ s.tips.map (fun t => t.header.hash) := by
        intro hmm
        obtain ⟨t, ht0, hte⟩ := List.mem_map.mp hmm
        exact f1 t ht0 hte
      have hlook_new : s1.headers h.hash = some n := by
        rw [hm]
        simp
      have hlook_prev : s1.headers h.prev_blockhash
          = some { parent with children := parent.children ++ [h.hash] } := by
        rw [hm]
        simp [hpne]
      have hlook_other : ∀ k, k ≠ h.hash → k ≠ h.prev_blockhash →
          s1.headers k = s.headers k := by
        intro k k1 k2
        rw [hm]
        simp [k1, k2]
      have hkey1 : ∀ k n1, s1.headers k = some n1 → n1.header.hash = k := by
        intro k n1 hk
        rw [hm] at hk
        dsimp only at hk
        by_cases k1 : k = h.hash
        · rw [if_pos k1] at hk
          injection hk with hk2
          rw [← hk2, hn]
          exact k1.symm
        · rw [if_neg k1] at hk
          by_cases k2 : k = h.prev_blockhash
          · rw [if_pos k2] at hk
            injection hk with hk2
            rw [← hk2]
            show parent.header.hash = k
            rw [hkey h.prev_blockhash parent hp, k2]
          · rw [if_neg k2] at hk
            exact hkey k n1 hk
      have hnheader : n.header = h := by rw [hn]
      have hnchildren : n.children = [] := by rw [hn]
      cases hpos : position (fun t => t.header.hash == h.prev_blockhash) s.tips with
      | some idx =>
        rw [hpos] at ht
        dsimp only at ht
        obtain ⟨hidx, hpidx⟩ := position_some_spec hpos
        have hhidx : (s.tips.get ⟨idx, hidx⟩).header.hash = h.prev_blockhash := by
          simpa using hpidx
        refine ⟨?_, ?_, ?_, hkey1, ?_⟩
        · rw [ht]
          intro h0
          apply hne
          have hl := congrArg List.length h0
          rw [List.length_set] at hl
          exact List.length_eq_zero.mp hl
        · rw [ht, List.map_set]
          exact nodup_set_of_not_mem hnd hhmem
        · intro t ht0
          rw [ht] at ht0
          obtain ⟨j, hj, hget⟩ := List.mem_iff_getElem.mp ht0
          rw [List.length_set] at hj
          by_cases hji : j = idx
          · subst hji
            rw [List.getElem_set_self (by simpa using hj)] at hget
            subst hget
            refine ⟨n, ?_, ?_, rfl, rfl, hnchildren⟩
            · show s1.headers h.hash = some n
              exact hlook_new
            · rw [hnheader]
          · have hget2 : s.tips.get ⟨j, hj⟩ = t := by
              rw [← hget]
              exact (List.getElem_set_ne (fun he => hji he.symm)
                (by rw [List.length_set]; exact hj)).symm
            have htmem : t ∈ s.tips := by
              rw [← hget2]
              exact s.tips.get_mem j hj
            obtain ⟨n0, hn0, hh0, hht0, hw0, hc0⟩ := htip t htmem
            have ht1 : t.header.hash ≠ h.hash := f1 t htmem
            have ht2 : t.header.hash ≠ h.prev_blockhash := by
              intro hte
              apply hji
              have hgj : (s.tips.map (fun t => t.header.hash)).get
                  ⟨j, by simpa using hj⟩
                  = (s.tips.map (fun t => t.header.hash)).get
                    ⟨idx, by simpa using hidx⟩ := by
                simp only [List.get_eq_getElem, List.getElem_map]
                have e1 : s.tips[j] = t := hget2
                have e2 : s.tips[idx].header.hash = h.prev_blockhash := hhidx
                rw [e1, hte, e2]
              have := (hnd.get_inj_iff).mp hgj
              simpa using this
            refine ⟨n0, ?_, hh0, hht0, hw0, hc0⟩
            rw [hlook_other t.header.hash ht1 ht2]
            exact hn0
        · intro k n1 hk hc
          rw [hm] at hk
          dsimp only at hk
          by_cases k1 : k = h.hash
          · rw [if_pos k1] at hk
            injection hk with hk2
            subst hk2
            refine ⟨⟨h, n.height, n.work⟩, ?_, hnheader.symm, rfl, rfl⟩
            rw [ht]
            exact List.mem_set s.tips idx hidx ⟨h, n.height, n.work⟩
          · rw [if_neg k1] at hk
            by_cases k2 : k = h.prev_blockhash
            · rw [if_pos k2] at hk
              injection hk with hk2
              rw [← hk2] at hc
              simp at hc
            · rw [if_neg k2] at hk
              obtain ⟨t, htm, hfields⟩ := hleaf k n1 hk hc
              refine ⟨t, ?_, hfields⟩
              rw [ht]
              obtain ⟨j, hj, hget⟩ := List.mem_iff_getElem.mp htm
              have hji : j ≠ idx := by
                intro hje
                subst hje
                apply k2
                rw [← hhidx]
                show _ = (s.tips.get ⟨j, hj⟩).header.hash
                rw [show s.tips.get ⟨j, hj⟩ = t from hget, hfields.1]
                exact (hkey1 k n1 (by rw [hm]; dsimp only; simp [k1, k2]; exact hk)).symm
              refine List.mem_iff_getElem.mpr ⟨j, by rw [List.length_set]; exact hj, ?_⟩
              rw [List.getElem_set_ne (fun he => hji he.symm)]
              exact hget
      | none =>
        rw [hpos] at ht
        dsimp only at ht
        have hnopos : ∀ t ∈ s.tips, t.header.hash ≠ h.prev_blockhash := by
          intro t ht0 hte
          have := position_eq_none_iff.mp hpos t ht0
          exact this (by simpa using hte)
        refine ⟨?_, ?_, ?_, hkey1, ?_⟩
        · rw [ht]
          simp
        · rw [ht, List.map_append]
          rw [List.nodup_append]
          refine ⟨hnd, by simp, ?_⟩
          intro a ha hb
          simp only [List.map_cons, List.map_nil, List.mem_singleton] at hb
          subst hb
          exact hhmem ha
        · intro t ht0
          rw [ht] at ht0
          rcases List.mem_append.mp ht0 with htm | htm
          · obtain ⟨n0, hn0, hfields⟩ := htip t htm
            refine ⟨n0, ?_, hfields⟩
            rw [hlook_other t.header.hash (f1 t htm) (hnopos t htm)]
            exact hn0
          · have : t = ⟨h, n.height, n.work⟩ := List.eq_of_mem_singleton htm
            subst this
            refine ⟨n, hlook_new, hnheader, rfl, rfl, hnchildren⟩
        · intro k n1 hk hc
          rw [hm] at hk
          dsimp only at hk
          by_cases k1 : k = h.hash
          · rw [if_pos k1] at hk
            injection hk with hk2
            subst hk2
            refine ⟨⟨h, n.height, n.work⟩, ?_, hnheader.symm, rfl, rfl⟩
            rw [ht]
            exact List.mem_append.mpr (Or.inr (List.mem_singleton.mpr rfl))
          · rw [if_neg k1] at hk
            by_cases k2 : k = h.prev_blockhash
            · rw [if_pos k2] at hk
              injection hk with hk2
              rw [← hk2] at hc
              simp at hc
            · rw [if_neg k2] at hk
              obtain ⟨t, htm, hfields⟩ := hleaf k n1 hk hc
              exact ⟨t, by rw [ht]; exact List.mem_append.mpr (Or.inl htm), hfields⟩

theorem add_headers_loop_core_wf (val : Validator) : ∀ (hs : List BlockHeader)
    (s : BlockchainState), CoreWF s → CoreWF (add_headers_loop val s hs).1 := by
  intro hs
  induction hs with
  | nil => intro s hwf; exact hwf
  | cons h t ih =>
    intro s hwf
    have hstep : CoreWF (add_header val s h).1 := add_header_core_wf hwf
    rcases hah : add_header val s h with ⟨s1, r⟩
    rw [hah] at hstep
    show CoreWF (add_headers_loop val s (h :: t)).1
    simp only [add_headers_loop]
    rw [hah]
    cases r with
    | ok res =>
      cases res with
      | headerAdded n =>
        dsimp only
        exact ih s1 hstep
      | headerAlreadyExists c =>
        dsimp only
        exact ih s1 hstep
    | error e =>
      dsimp only
      rw [add_header_error_state hah]
      obtain rfl : s1 = s := add_header_error_state hah
      exact hwf

theorem add_headers_public_wf {val : Validator} {f : List Tip → List Tip}
    {s : BlockchainState} {hs : List BlockHeader}
    (hwf : PublicWF s) (hf : SortOk f) : PublicWF (add_headers val f s hs).1 := by
  have hcore := add_headers_loop_core_wf val hs s hwf.1
  exact ⟨core_wf_tips_perm hcore (hf _).1, (hf _).2⟩

theorem add_block_public_wf {val : Validator} {f : List Tip → List Tip}
    {s : BlockchainState} {b : Block}
    (hwf : PublicWF s) (hf : SortOk f) : PublicWF (add_block val f s b).1 := by
  unfold add_block
  split
  · exact hwf
  · have hstep : CoreWF (add_header val s b.header).1 := add_header_core_wf hwf.1
    rcases hah : add_header val s b.header with ⟨s1, r⟩
    rw [hah] at hstep
    cases r with
    | error e =>
      dsimp only
      obtain rfl : s1 = s := add_header_error_state hah
      exact hwf
    | ok r2 =>
      dsimp only
      exact ⟨core_wf_tips_perm hstep (hf _).1, (hf _).2⟩

theorem new_public_wf (g : BlockHeader) : PublicWF (BlockchainState.new g) := by
  constructor
  · refine ⟨?_, ?_, ?_, ?_, ?_⟩
    · simp [BlockchainState.new]
    · simp [BlockchainState.new]
    · intro t ht0
      simp only [BlockchainState.new, List.mem_singleton] at ht0
      subst ht0
      refine ⟨⟨g, 0, g.header_work, []⟩, ?_, rfl, rfl, rfl, rfl⟩
      simp [BlockchainState.new]
    · intro k n hk
      simp only [BlockchainState.new] at hk
      by_cases hkg : k = g.hash
      · rw [if_pos hkg] at hk
        injection hk with hk2
        rw [← hk2, hkg]
      · rw [if_neg hkg] at hk
        cases hk
    · intro k n hk hc
      simp only [BlockchainState.new] at hk
      by_cases hkg : k = g.hash
      · rw [if_pos hkg] at hk
        injection hk with hk2
        refine ⟨⟨g, 0, g.header_work⟩, by simp [BlockchainState.new], ?_, ?_, ?_⟩
        · rw [← hk2]
        · rw [← hk2]
        · rw [← hk2]
      · rw [if_neg hkg] at hk
        cases hk
  · simp [BlockchainState.new]

theorem reachable_public_wf {val : Validator} {s : BlockchainState}
    (h : Reachable val s) : PublicWF s := by
  induction h with
  | init g => exact new_public_wf g
  | addHeadersStep f hs _hr hf ih => exact add_headers_public_wf ih hf
  | addBlockStep f b _hr hf ih => exact add_block_public_wf ih hf
  | pruneStep hashes _hr ih => exact ih
  | pruneBelowStep h2 _hr ih => exact ih
  | clearStep _hr ih => exact ih

/-- Claim C7: after any sequence of public operations from a freshly
constructed state, the entries of the tip sequence are exactly the header
nodes with an empty children list: tip hashes are distinct, every tip is
backed by a node with empty children carrying the same header, height and
work, and every node with empty children is represented by a tip. -/
theorem claim_C7 : ∀ (val : Validator) (s : BlockchainState), Reachable val s →
    (s.tips.map (fun t => t.header.hash)).Nodup
    ∧ (∀ t ∈ s.tips, ∃ n, s.headers t.header.hash = some n ∧ n.header = t.header
        ∧ n.height = t.height ∧ n.work = t.work ∧ n.children = [])
    ∧ (∀ h n, s.headers h = some n → n.children = [] →
        ∃ t ∈ s.tips, t.header = n.header ∧ t.height = n.height ∧ t.work = n.work) := by
  intro val s hr
  obtain ⟨⟨hne, hnd, htip, hkey, hleaf⟩, hsort⟩ := reachable_public_wf hr
  exact ⟨hnd, htip, hleaf⟩

/-- Witness for claim C7 at the freshly constructed state. -/
theorem claim_C7_witness :
    Reachable trivialValidator s0
    ∧ ((s0.tips.map (fun t => t.header.hash)).Nodup
      ∧ (∀ t ∈ s0.tips, ∃ n, s0.headers t.header.hash = some n ∧ n.header = t.header
          ∧ n.height = t.height ∧ n.work = t.work ∧ n.children = [])
      ∧ (∀ h n, s0.headers h = some n → n.children = [] →
          ∃ t ∈ s0.tips, t.header = n.header ∧ t.height = n.height ∧ t.work = n.work)) :=
  ⟨Reachable.init g0, claim_C7 trivialValidator s0 (Reachable.init g0)⟩

/-- Claim C9: on every reachable state the tip sequence is non-empty, so
get_active_chain_tip is defined (the source indexes tips[0] without panic),
and the returned tip has work greater than or equal to that of every tip. -/
theorem claim_C9 : ∀ (val : Validator) (s : BlockchainState), Reachable val s →
    ∃ t rest, s.tips = t :: rest
      ∧ get_active_chain_tip s = t
      ∧ ∀ u ∈ s.tips, u.work ≤ t.work := by
  intro val s hr
  obtain ⟨⟨hne, _, _, _, _⟩, hsort⟩ := reachable_public_wf hr
  obtain ⟨t, rest, hts⟩ : ∃ t rest, s.tips = t :: rest := by
    cases h0 : s.tips with
    | nil => exact absurd h0 hne
    | cons a b => exact ⟨a, b, rfl⟩
  refine ⟨t, rest, hts, ?_, ?_⟩
  · unfold get_active_chain_tip
    rw [hts]
    rfl
  · intro u hu
    rw [hts] at hu hsort
    rcases List.mem_cons.mp hu with rfl | hu2
    · exact le_refl _
    · exact (List.pairwise_cons.mp hsort).1 u hu2

/-- Witness for claim C9 at the freshly constructed state. -/
theorem claim_C9_witness :
    Reachable trivialValidator s0
    ∧ ∃ t rest, s0.tips = t :: rest
      ∧ get_active_chain_tip s0 = t
      ∧ ∀ u ∈ s0.tips, u.work ≤ t.work :=
  ⟨Reachable.init g0, claim_C9 trivialValidator s0 (Reachable.init g0)⟩

theorem locator_walk_chain {s : BlockchainState} {c : Nat → BlockHeader} {N : Nat}
    (hc : ChainInStore s c N) : ∀ (j k : Nat), k ≤ N → j ≤ k →
    locator_walk s (c k) j = some (c (k - j)) := by
  intro j
  induction j with
  | zero =>
    intro k _ _
    simp [locator_walk]
  | succ i ih =>
    intro k hk hj
    have hk1 : 1 ≤ k := le_trans (Nat.succ_le_succ (Nat.zero_le i)) hj
    have hprev : (c k).prev_blockhash = (c (k - 1)).hash := by
      have hl := hc.link (k - 1) (by omega)
      rw [show k - 1 + 1 = k by omega] at hl
      exact hl
    obtain ⟨n1, hn1, hh1⟩ := hc.stored (k - 1) (by omega)
    show locator_walk s (c k) (i + 1) = _
    simp only [locator_walk]
    rw [hprev, hn1]
    dsimp only
    rw [hh1]
    rw [ih (k - 1) (by omega) (by omega)]
    rw [show k - 1 - i = k - (i + 1) by omega]

theorem locator_loop_last {s : BlockchainState} {c : Nat → BlockHeader} {N : Nat}
    (hc : ChainInStore s c N) (gh : Nat) (hgh : gh = (c 0).hash)
    (i k step last : Nat) (acc : List Nat) (hk : k ≤ N) (hk1 : 1 ≤ k) :
    locator_loop s gh 1 i (c k) step last acc = acc ++ [(c k).hash] ++ [gh] := by
  have hne : ¬ ((c k).hash = gh) := by
    rw [hgh]
    intro he
    have := hc.inj k 0 hk (Nat.zero_le N) he
    omega
  show locator_loop s gh (0 + 1) i (c k) step last acc = _
  simp only [locator_loop]
  cases hw : locator_walk s (c k) step with
  | none =>
    rw [if_neg hne]
  | some next =>
    rw [if_neg hne]

theorem locator_loop_step {s : BlockchainState} {c : Nat → BlockHeader} {N : Nat}
    (hc : ChainInStore s c N) (gh : Nat)
    (fuel0 fuel i i2 k k2 step step2 last : Nat) (acc : List Nat)
    (hfuel : fuel0 = fuel + 1) (hi2 : i2 = i + 1) (hk : k ≤ N) (hstep : step ≤ k)
    (hk2 : k2 = k - step)
    (hstep2 : step2 = if 7 ≤ i then satDouble step else step) :
    locator_loop s gh fuel0 i (c k) step last acc
      = locator_loop s gh fuel i2 (c k2) step2 ((c k).hash) (acc ++ [(c k).hash]) := by
  subst hfuel
  subst hi2
  subst hk2
  subst hstep2
  simp only [locator_loop]
  rw [locator_walk_chain hc step k hk hstep]

theorem locator_hashes_chain {s : BlockchainState} {c : Nat → BlockHeader} {N : Nat}
    (hc : ChainInStore s c N) (hN : 16391 ≤ N) :
    locator_hashes s
      = actual_offsets.map (fun o => (c (N - o)).hash) ++ [s.genesis_hash] := by
  have hgh : s.genesis_hash = (c 0).hash := hc.genesis_eq
  unfold locator_hashes
  rw [hc.tip_eq]
  rw [locator_loop_step hc s.genesis_hash 22 21 0 1 N (N - 1) 1 1 _ _ (by decide) (by decide) (by omega) (by omega) (by omega) (by decide)]
  rw [locator_loop_step hc s.genesis_hash 21 20 1 2 (N - 1) (N - 2) 1 1 _ _ (by decide) (by decide) (by omega) (by omega) (by omega) (by decide)]
  rw [locator_loop_step hc s.genesis_hash 20 19 2 3 (N - 2) (N - 3) 1 1 _ _ (by decide) (by decide) (by omega) (by omega) (by omega) (by decide)]
  rw [locator_loop_step hc s.genesis_hash 19 18 3 4 (N - 3) (N - 4) 1 1 _ _ (by decide) (by decide) (by omega) (by omega) (by omega) (by decide)]
  rw [locator_loop_step hc s.genesis_hash 18 17 4 5 (N - 4) (N - 5) 1 1 _ _ (by decide) (by decide) (by omega) (by omega) (by omega) (by decide)]
  rw [locator_loop_step hc s.genesis_hash 17 16 5 6 (N - 5) (N - 6) 1 1 _ _ (by decide) (by decide) (by omega) (by omega) (by omega) (by decide)]
  rw [locator_loop_step hc s.genesis_hash 16 15 6 7 (N - 6) (N - 7) 1 1 _ _ (by decide) (by decide) (by omega) (by omega) (by omega) (by decide)]
  rw [locator_loop_step hc s.genesis_hash 15 14 7 8 (N - 7) (N - 8) 1 2 _ _ (by decide) (by decide) (by omega) (by omega) (by omega) (by decide)]
  rw [locator_loop_step hc s.genesis_hash 14 13 8 9 (N - 8) (N - 10) 2 4 _ _ (by decide) (by decide) (by omega) (by omega) (by omega) (by decide)]
  rw [locator_loop_step hc s.genesis_hash 13 12 9 10 (N - 10) (N - 14) 4 8 _ _ (by decide) (by decide) (by omega) (by omega) (by omega) (by decide)]
  rw [locator_loop_step hc s.genesis_hash 12 11 10 11 (N - 14) (N - 22) 8 16 _ _ (by decide) (by decide) (by omega) (by omega) (by omega) (by decide)]
  rw [locator_loop_step hc s.genesis_hash 11 10 11 12 (N - 22) (N - 38) 16 32 _ _ (by decide) (by decide) (by omega) (by omega) (by omega) (by decide)]
  rw [locator_loop_step hc s.genesis_hash 10 9 12 13 (N - 38) (N - 70) 32 64 _ _ (by decide) (by decide) (by omega) (by omega) (by omega) (by decide)]
  rw [locator_loop_step hc s.genesis_hash 9 8 13 14 (N - 70) (N - 134) 64 128 _ _ (by decide) (by decide) (by omega) (by omega) (by omega) (by decide)]
  rw [locator_loop_step hc s.genesis_hash 8 7 14 15 (N - 134) (N - 262) 128 256 _ _ (by decide) (by decide) (by omega) (by omega) (by omega) (by decide)]
  rw [locator_loop_step hc s.genesis_hash 7 6 15 16 (N - 262) (N - 518) 256 512 _ _ (by decide) (by decide) (by omega) (by omega) (by omega) (by decide)]
  rw [locator_loop_step hc s.genesis_hash 6 5 16 17 (N - 518) (N - 1030) 512 1024 _ _ (by decide) (by decide) (by omega) (by omega) (by omega) (by decide)]
  rw [locator_loop_step hc s.genesis_hash 5 4 17 18 (N - 1030) (N - 2054) 1024 2048 _ _ (by decide) (by decide) (by omega) (by omega) (by omega) (by decide)]
  rw [locator_loop_step hc s.genesis_hash 4 3 18 19 (N - 2054) (N - 4102) 2048 4096 _ _ (by decide) (by decide) (by omega) (by omega) (by omega) (by decide)]
  rw [locator_loop_step hc s.genesis_hash 3 2 19 20 (N - 4102) (N - 8198) 4096 8192 _ _ (by decide) (by decide) (by omega) (by omega) (by omega) (by decide)]
  rw [locator_loop_step hc s.genesis_hash 2 1 20 21 (N - 8198) (N - 16390) 8192 16384 _ _ (by decide) (by decide) (by omega) (by omega) (by omega) (by decide)]
  rw [locator_loop_last hc s.genesis_hash hgh 21 (N - 16390) 16384 _ _ (by omega) (by omega)]
  simp [actual_offsets]

theorem mkChain_chainInStore (N : Nat) :
    ChainInStore (mkChainState N) mkChainHeader N := by
  refine ⟨rfl, fun k _ => rfl, ?_, ?_, rfl⟩
  · intro k hk
    refine ⟨⟨mkChainHeader k, k, k + 1, if k + 1 = N + 1 then [] else [k + 1 + 1]⟩, ?_, rfl⟩
    show (mkChainState N).headers (k + 1) = _
    unfold mkChainState
    dsimp only
    rw [if_pos (⟨by omega, by omega⟩ : 1 ≤ k + 1 ∧ k + 1 ≤ N + 1)]
    simp
  · intro j k _ _ he
    have h2 : j + 1 = k + 1 := he
    omega

/-- Claim C2 (amended): for every chain of at least 16391 headers above
genesis held in the store with the active tip at its end, locator_hashes
returns the hashes at back-offsets 0,1,2,3,4,5,6,7,8 from the tip, then
8+2, 8+2+4, 8+2+4+8, and so on up through 8+2+4+...+8192 = 16390, followed
by the genesis hash. -/
theorem claim_C2 : ∀ (s : BlockchainState) (c : Nat → BlockHeader) (N : Nat),
    ChainInStore s c N → 16391 ≤ N →
    locator_hashes s
      = actual_offsets.map (fun o => (c (N - o)).hash) ++ [s.genesis_hash] :=
  fun _s _c _N hc hN => locator_hashes_chain hc hN

/-- Witness for the amended claim C2: the concrete straight chain of 16391
headers above genesis. -/
theorem claim_C2_witness :
    ChainInStore (mkChainState 16391) mkChainHeader 16391
    ∧ locator_hashes (mkChainState 16391)
        = actual_offsets.map (fun o => (mkChainHeader (16391 - o)).hash) ++ [1] := by
  refine ⟨mkChain_chainInStore 16391, ?_⟩
  have h := claim_C2 (mkChainState 16391) mkChainHeader 16391
    (mkChain_chainInStore 16391) (by norm_num)
  simpa using h

/-- Claim C2 counterexample: a straight chain of 16391 headers above genesis
satisfies the premise of the claim (at least 4096+...+2+7 = 8197 headers in
the store), yet locator_hashes does not return the hashes at the claimed
back-offsets 0..7, 7+2, 7+2+4, ..., 7+2+...+4096 followed by genesis: the
ninth hash sits at back-offset 8 (not 9), the loop runs 22 iterations with
the step doubling only after the walk, and the deep offsets are
8+2+...+2^j. -/
theorem claim_C2_counterexample :
    ChainInStore (mkChainState 16391) mkChainHeader 16391
    ∧ 8197 ≤ 16391
    ∧ locator_hashes (mkChainState 16391)
        ≠ spec_offsets.map (fun o => (mkChainHeader (16391 - o)).hash) ++ [1] := by
  refine ⟨mkChain_chainInStore 16391, by norm_num, ?_⟩
  have h := locator_hashes_chain (mkChain_chainInStore 16391) (by norm_num)
  rw [h]
  decide

end BA
